import Mathlib

/-!
Verification of the archivyr ruleset persistence layer.

The definitions below are a shallow embedding of the Go sources:
- internal/util/validation.go   (name validation, RFC3339 timestamps)
- internal/ruleset/service.go   (store service: Create/Get/Update/Delete/Search,
  glob matching via matchesPattern)
- internal/ruleset/types.go     (Ruleset, update descriptor)

The external Valkey client is modelled as an association-list store with
hash-map primitives (Exists / HGetAll / HSet / Del / Scan); Scan failure is
modelled by a fault flag so that the best-effort "list existing names"
error payloads can be stated.
-/

namespace Archivyr

/-! ### Association-list helpers (model of Go maps / Valkey hashes) -/

/-- First-match lookup in an association list. -/
def lookupA {α : Type} : List (String × α) → String → Option α
  | [], _ => none
  | (k, x) :: rest, key => if k = key then some x else lookupA rest key

/-- Insert-or-replace of a single binding, keeping list order for a
replaced key and appending a new key at the end. -/
def upsertA {α : Type} : List (String × α) → String → α → List (String × α)
  | [], k, v => [(k, v)]
  | (k', x) :: rest, k, v =>
    if k' = k then (k, v) :: rest else (k', x) :: upsertA rest k v

@[simp] theorem lookupA_nil {α : Type} (key : String) :
    lookupA ([] : List (String × α)) key = none := rfl

@[simp] theorem lookupA_cons {α : Type} (k : String) (x : α) (rest : List (String × α))
    (key : String) :
    lookupA ((k, x) :: rest) key = if k = key then some x else lookupA rest key := rfl

theorem lookupA_upsertA {α : Type} (l : List (String × α)) (k : String) (v : α)
    (key : String) :
    lookupA (upsertA l k v) key = if k = key then some v else lookupA l key := by
  induction l with
  | nil => simp [upsertA]
  | cons p rest ih =>
    obtain ⟨k', x⟩ := p
    by_cases h1 : k' = k
    · subst h1
      by_cases h2 : k' = key <;> simp [upsertA, h2]
    · by_cases h2 : k' = key
      · subst h2
        have hk : ¬ k = k' := fun h => h1 h.symm
        simp [upsertA, h1, hk]
      · simp [upsertA, h1, h2, ih]

/-! ### Name validation (internal/util/validation.go)

The Go code matches the name against the regular expression
  ^[a-z][a-z0-9]*(_[a-z0-9]+)*$
We embed the regular expression as an executable matcher: a first character
in [a-z], then a tail automaton accepting [a-z0-9]* (_[a-z0-9]+)*. -/

/-- [a-z] -/
def isLowerAZ (c : Char) : Bool := 'a' ≤ c && c ≤ 'z'

/-- [a-z0-9] -/
def isLowerDigit (c : Char) : Bool := isLowerAZ c || ('0' ≤ c && c ≤ '9')

/-- Tail of the snake-case regular expression: [a-z0-9]* (_[a-z0-9]+)*. -/
def validTail : List Char → Bool
  | [] => true
  | c :: rest =>
    if c = '_' then
      match rest with
      | [] => false
      | d :: rest' => isLowerDigit d && validTail rest'
    else
      isLowerDigit c && validTail rest

@[simp] theorem validTail_nil : validTail [] = true := rfl

theorem validTail_cons_ne (c : Char) (rest : List Char) (h : c ≠ '_') :
    validTail (c :: rest) = (isLowerDigit c && validTail rest) := by
  rw [validTail.eq_def]
  simp [h]

@[simp] theorem validTail_underscore_nil : validTail ['_'] = false := rfl

@[simp] theorem validTail_underscore_cons (d : Char) (rest : List Char) :
    validTail ('_' :: d :: rest) = (isLowerDigit d && validTail rest) := by
  rw [validTail.eq_def]
  simp

/-- The whole snake-case regular expression ^[a-z][a-z0-9]*(_[a-z0-9]+)*$. -/
def snakeMatch : List Char → Bool
  | [] => false
  | c :: rest => isLowerAZ c && validTail rest

@[simp] theorem snakeMatch_nil : snakeMatch [] = false := rfl

@[simp] theorem snakeMatch_cons (c : Char) (rest : List Char) :
    snakeMatch (c :: rest) = (isLowerAZ c && validTail rest) := rfl

/-- util.ValidateRulesetName: empty-name check, then the regex. -/
def ValidateRulesetName (s : String) : Except String Unit :=
  if s = "" then .error "ruleset name cannot be empty"
  else if snakeMatch s.data then .ok ()
  else .error ("ruleset name must be in snake_case format (lowercase letters, numbers, and underscores only, starting with a letter): " ++ s)

/-- Declarative reading of the snake-case grammar, taken from the spec:
a lowercase letter, then lowercase letters and digits, then
underscore-separated nonempty segments of lowercase letters and digits. -/
def SnakeGrammar (s : String) : Prop :=
  ∃ (c : Char) (rest0 : List Char) (segs : List (List Char)),
    s.data = (c :: rest0) ++ (segs.map (fun seg => '_' :: seg)).flatten ∧
    isLowerAZ c = true ∧
    (∀ x ∈ rest0, isLowerDigit x = true) ∧
    (∀ seg ∈ segs, seg ≠ [] ∧ ∀ x ∈ seg, isLowerDigit x = true)

theorem isLowerDigit_ne_underscore {c : Char} (h : isLowerDigit c = true) : c ≠ '_' := by
  intro hc
  subst hc
  exact absurd h (by decide)

/-- A run of [a-z0-9] characters is consumed transparently by the tail
automaton. -/
theorem validTail_append_run (r0 : List Char) (x : List Char)
    (h : ∀ c ∈ r0, isLowerDigit c = true) :
    validTail (r0 ++ x) = validTail x := by
  induction r0 with
  | nil => simp
  | cons c r0 ih =>
    have hc : isLowerDigit c = true := h c (by simp)
    have hne : c ≠ '_' := isLowerDigit_ne_underscore hc
    have ih' := ih (fun d hd => h d (by simp [hd]))
    rw [List.cons_append, validTail_cons_ne c _ hne, hc, ih']
    simp

/-- The tail automaton accepts any well-formed sequence of underscore
segments. -/
theorem validTail_join (segs : List (List Char))
    (h : ∀ seg ∈ segs, seg ≠ [] ∧ ∀ x ∈ seg, isLowerDigit x = true) :
    validTail ((segs.map (fun seg => '_' :: seg)).flatten) = true := by
  induction segs with
  | nil => simp
  | cons seg segs ih =>
    obtain ⟨hne, hall⟩ := h seg (by simp)
    obtain ⟨d, seg', rfl⟩ : ∃ d seg', seg = d :: seg' := by
      cases seg with
      | nil => exact absurd rfl hne
      | cons d seg' => exact ⟨d, seg', rfl⟩
    have hd : isLowerDigit d = true := hall d (by simp)
    have hrun : validTail (seg' ++ (segs.map (fun seg => '_' :: seg)).flatten) =
        validTail ((segs.map (fun seg => '_' :: seg)).flatten) :=
      validTail_append_run seg' _ (fun c hc => hall c (by simp [hc]))
    have ih' := ih (fun s hs => h s (by simp [hs]))
    simp [hd, hrun, ih']

/-- Soundness and completeness of the tail automaton against the grammar
tail. -/
theorem validTail_iff (l : List Char) :
    validTail l = true ↔
      ∃ (r0 : List Char) (segs : List (List Char)),
        l = r0 ++ (segs.map (fun seg => '_' :: seg)).flatten ∧
        (∀ c ∈ r0, isLowerDigit c = true) ∧
        (∀ seg ∈ segs, seg ≠ [] ∧ ∀ x ∈ seg, isLowerDigit x = true) := by
  constructor
  · intro h
    induction l using validTail.induct with
    | case1 => exact ⟨[], [], by simp⟩
    | case2 => simp at h
    | case3 d rest' ih =>
      rw [validTail_underscore_cons] at h
      simp at h
      obtain ⟨hd, htail⟩ := h
      obtain ⟨r0, segs, rfl, hr0, hsegs⟩ := ih htail
      refine ⟨[], (d :: r0) :: segs, by simp, by simp, ?_⟩
      intro seg hseg
      rcases List.mem_cons.mp hseg with hseg | hseg
      · subst hseg
        refine ⟨by simp, ?_⟩
        intro x hx
        rcases List.mem_cons.mp hx with hx | hx
        · simpa [hx] using hd
        · exact hr0 x hx
      · exact hsegs seg hseg
    | case4 c rest hne ih =>
      rw [validTail_cons_ne c _ hne] at h
      simp at h
      obtain ⟨hc, htail⟩ := h
      obtain ⟨r0, segs, rfl, hr0, hsegs⟩ := ih htail
      refine ⟨c :: r0, segs, by simp, ?_, hsegs⟩
      intro x hx
      rcases List.mem_cons.mp hx with hx | hx
      · simpa [hx] using hc
      · exact hr0 x hx
  · rintro ⟨r0, segs, rfl, hr0, hsegs⟩
    rw [validTail_append_run r0 _ hr0]
    exact validTail_join segs hsegs

/-- The automaton rejects a trailing underscore anywhere in the tail. -/
theorem validTail_append_underscore (l : List Char) :
    validTail (l ++ ['_']) = false := by
  induction l using validTail.induct with
  | case1 => rfl
  | case2 => decide
  | case3 d rest' ih => simp [ih]
  | case4 c rest hne ih => simp [validTail_cons_ne _ _ hne, ih]

/-- The automaton rejects doubled underscores anywhere in the tail. -/
theorem validTail_doubled_underscore (l1 l2 : List Char) :
    validTail (l1 ++ '_' :: '_' :: l2) = false := by
  induction l1 using validTail.induct with
  | case1 =>
    simp only [List.nil_append, validTail_underscore_cons]
    simp [isLowerDigit, isLowerAZ]
  | case2 =>
    simp only [List.cons_append, List.nil_append, validTail_underscore_cons]
    simp [isLowerDigit, isLowerAZ]
  | case3 d rest' ih => simp [ih]
  | case4 c rest hne ih => simp [validTail_cons_ne _ _ hne, ih]

theorem snakeGrammar_chars {s : String} (h : SnakeGrammar s) :
    ∀ c ∈ s.data, isLowerDigit c = true ∨ c = '_' := by
  obtain ⟨c0, rest0, segs, hs, hc0, hr0, hsegs⟩ := h
  intro c hc
  rw [hs] at hc
  rcases List.mem_append.mp hc with hc | hc
  · rcases List.mem_cons.mp hc with hc | hc
    · subst hc
      left
      simp [isLowerDigit, hc0]
    · exact Or.inl (hr0 c hc)
  · obtain ⟨l, hl, hmem⟩ := List.mem_flatten.mp hc
    obtain ⟨seg, hseg, rfl⟩ := List.mem_map.mp hl
    rcases List.mem_cons.mp hmem with hm | hm
    · exact Or.inr hm
    · exact Or.inl ((hsegs seg hseg).2 c hm)

/-- ValidateRulesetName succeeds exactly on names matching the anchored
snake-case regular expression. -/
theorem validateRulesetName_ok_iff (s : String) :
    ValidateRulesetName s = .ok () ↔ snakeMatch s.data = true := by
  unfold ValidateRulesetName
  by_cases hs : s = ""
  · subst hs
    constructor
    · intro h
      exact absurd h (by simp)
    · intro h
      exact absurd h (by decide)
  · rw [if_neg hs]
    by_cases hm : snakeMatch s.data = true
    · simp [hm]
    · rw [if_neg hm]
      simp [hm]

theorem snakeMatch_iff_grammar (s : String) :
    snakeMatch s.data = true ↔ SnakeGrammar s := by
  constructor
  · intro h
    cases hd : s.data with
    | nil => rw [hd] at h; simp at h
    | cons c rest =>
      rw [hd] at h
      simp at h
      obtain ⟨hc, htail⟩ := h
      obtain ⟨r0, segs, hrest, hr0, hsegs⟩ := (validTail_iff rest).mp htail
      exact ⟨c, r0, segs, by simp [hd, hrest], hc, hr0, hsegs⟩
  · rintro ⟨c, rest0, segs, hs, hc, hr0, hsegs⟩
    rw [hs]
    simp [hc]
    exact (validTail_iff _).mpr ⟨rest0, segs, rfl, hr0, hsegs⟩

deriving instance DecidableEq for Except

/-- C4: ValidateRulesetName succeeds exactly when the string matches the
grammar ^[a-z][a-z0-9]*(_[a-z0-9]+)*$; in particular it fails for the empty
string, for any string containing a character outside lowercase letters,
digits and underscore (uppercase letters, hyphens, spaces, ...), and for any
leading, trailing, or doubled underscore. -/
theorem validateRulesetName_grammar (s : String) :
    (ValidateRulesetName s = .ok () ↔ SnakeGrammar s) ∧
    (s = "" → ValidateRulesetName s ≠ .ok ()) ∧
    (∀ c ∈ s.data, isLowerDigit c = false → c ≠ '_' → ValidateRulesetName s ≠ .ok ()) ∧
    (∀ l, s.data = '_' :: l → ValidateRulesetName s ≠ .ok ()) ∧
    (∀ l, s.data = l ++ ['_'] → ValidateRulesetName s ≠ .ok ()) ∧
    (∀ l1 l2, s.data = l1 ++ '_' :: '_' :: l2 → ValidateRulesetName s ≠ .ok ()) := by
  refine ⟨(validateRulesetName_ok_iff s).trans (snakeMatch_iff_grammar s), ?_, ?_, ?_, ?_, ?_⟩
  · intro hs
    subst hs
    intro h
    exact absurd h (by decide)
  · intro c hc hld hne hok
    have hg := (snakeMatch_iff_grammar s).mp ((validateRulesetName_ok_iff s).mp hok)
    rcases snakeGrammar_chars hg c hc with h | h
    · rw [hld] at h
      exact Bool.false_ne_true h
    · exact hne h
  · intro l hl hok
    have hm := (validateRulesetName_ok_iff s).mp hok
    rw [hl] at hm
    simp [show isLowerAZ '_' = false from by decide] at hm
  · intro l hl hok
    have hm := (validateRulesetName_ok_iff s).mp hok
    rw [hl] at hm
    cases l with
    | nil => simp [show isLowerAZ '_' = false from by decide] at hm
    | cons c l' =>
      rw [List.cons_append] at hm
      simp [validTail_append_underscore] at hm
  · intro l1 l2 hl hok
    have hm := (validateRulesetName_ok_iff s).mp hok
    rw [hl] at hm
    cases l1 with
    | nil => simp [show isLowerAZ '_' = false from by decide] at hm
    | cons c l' =>
      rw [List.cons_append] at hm
      simp [validTail_doubled_underscore] at hm

/-- Concrete instance of the C4 theorem: a valid snake-case name is in the
grammar, and a name with a leading underscore is rejected. -/
theorem validateRulesetName_grammar_witness :
    SnakeGrammar "python_style_guide" ∧ ValidateRulesetName "_bad" ≠ .ok () :=
  ⟨(validateRulesetName_grammar "python_style_guide").1.mp (by decide),
   (validateRulesetName_grammar "_bad").2.2.2.1 ['b', 'a', 'd'] (by decide)⟩

/-! ### Timestamps (internal/util/validation.go)

FormatTimestamp is Go's t.Format(time.RFC3339) and ParseTimestamp is
time.Parse(time.RFC3339, s).  A DateTime models a Go time.Time truncated to
whole seconds with a fixed whole-minute UTC offset — exactly the instants
the RFC3339 second-precision encoding represents (year 1..9999, offset
within plus-minus 23:59).  The parser below is positional over the RFC3339
layout yyyy-mm-ddThh:mm:ss(Z|+hh:mm|-hh:mm) and performs the same range
validation Go applies (month, per-month day count including leap years,
hour, minute, second). -/

structure DateTime where
  year : Nat
  month : Nat
  day : Nat
  hour : Nat
  minute : Nat
  second : Nat
  /-- UTC offset in minutes east of UTC. -/
  offset : Int
deriving DecidableEq, Repr

def isLeap (y : Nat) : Bool := y % 4 == 0 && (y % 100 != 0 || y % 400 == 0)

def daysInMonth (y m : Nat) : Nat :=
  if m = 2 then (if isLeap y then 29 else 28)
  else if m = 4 ∨ m = 6 ∨ m = 9 ∨ m = 11 then 30
  else 31

def DateTime.Valid (t : DateTime) : Prop :=
  1 ≤ t.year ∧ t.year ≤ 9999 ∧ 1 ≤ t.month ∧ t.month ≤ 12 ∧
  1 ≤ t.day ∧ t.day ≤ daysInMonth t.year t.month ∧
  t.hour ≤ 23 ∧ t.minute ≤ 59 ∧ t.second ≤ 59 ∧
  -(23 * 60 + 59 : Int) ≤ t.offset ∧ t.offset ≤ 23 * 60 + 59

instance (t : DateTime) : Decidable t.Valid := by
  unfold DateTime.Valid
  infer_instance

/-- The zero Go time.Time: January 1, year 1, 00:00:00 UTC. -/
def DateTime.zero : DateTime := ⟨1, 1, 1, 0, 0, 0, 0⟩

def digitC : Nat → Char
  | 0 => '0'
  | 1 => '1'
  | 2 => '2'
  | 3 => '3'
  | 4 => '4'
  | 5 => '5'
  | 6 => '6'
  | 7 => '7'
  | 8 => '8'
  | 9 => '9'
  | _ => '0'

def readDigit (c : Char) : Option Nat :=
  if '0' ≤ c ∧ c ≤ '9' then some (c.toNat - 48) else none

def pad2 (n : Nat) : List Char := [digitC (n / 10), digitC (n % 10)]

def pad4 (n : Nat) : List Char :=
  [digitC (n / 1000), digitC (n / 100 % 10), digitC (n / 10 % 10), digitC (n % 10)]

/-- Go renders a zero offset as Z, otherwise a signed hh:mm offset. -/
def offsetChars (off : Int) : List Char :=
  if off = 0 then ['Z']
  else (if off < 0 then '-' else '+') ::
    (pad2 (off.natAbs / 60) ++ ':' :: pad2 (off.natAbs % 60))

def FormatTimestamp (t : DateTime) : String :=
  String.mk (pad4 t.year ++ '-' :: pad2 t.month ++ '-' :: pad2 t.day ++
    'T' :: pad2 t.hour ++ ':' :: pad2 t.minute ++ ':' :: pad2 t.second ++
    offsetChars t.offset)

def read2 : List Char → Option (Nat × List Char)
  | c1 :: c2 :: rest =>
    match readDigit c1, readDigit c2 with
    | some d1, some d2 => some (10 * d1 + d2, rest)
    | _, _ => none
  | _ => none

def read4 : List Char → Option (Nat × List Char)
  | c1 :: c2 :: c3 :: c4 :: rest =>
    match readDigit c1, readDigit c2, readDigit c3, readDigit c4 with
    | some d1, some d2, some d3, some d4 => some (1000 * d1 + 100 * d2 + 10 * d3 + d4, rest)
    | _, _, _, _ => none
  | _ => none

def expectC (c : Char) : List Char → Option (List Char)
  | c' :: rest => if c' = c then some rest else none
  | [] => none

def readOffset : List Char → Option (Int × List Char)
  | 'Z' :: rest => some (0, rest)
  | '+' :: rest =>
    match read2 rest with
    | some (h, r1) =>
      match expectC ':' r1 with
      | some r2 =>
        match read2 r2 with
        | some (m, r3) => some (((h * 60 + m : Nat) : Int), r3)
        | none => none
      | none => none
    | none => none
  | '-' :: rest =>
    match read2 rest with
    | some (h, r1) =>
      match expectC ':' r1 with
      | some r2 =>
        match read2 r2 with
        | some (m, r3) => some (-((h * 60 + m : Nat) : Int), r3)
        | none => none
      | none => none
    | none => none
  | _ => none

@[simp] theorem expectC_same (c : Char) (rest : List Char) :
    expectC c (c :: rest) = some rest := by
  simp [expectC]

def parseTSChars (cs : List Char) : Option DateTime :=
  match read4 cs with
  | none => none
  | some (y, r1) =>
  match expectC '-' r1 with
  | none => none
  | some r2 =>
  match read2 r2 with
  | none => none
  | some (mo, r3) =>
  match expectC '-' r3 with
  | none => none
  | some r4 =>
  match read2 r4 with
  | none => none
  | some (d, r5) =>
  match expectC 'T' r5 with
  | none => none
  | some r6 =>
  match read2 r6 with
  | none => none
  | some (h, r7) =>
  match expectC ':' r7 with
  | none => none
  | some r8 =>
  match read2 r8 with
  | none => none
  | some (mi, r9) =>
  match expectC ':' r9 with
  | none => none
  | some r10 =>
  match read2 r10 with
  | none => none
  | some (sec, r11) =>
  match readOffset r11 with
  | none => none
  | some (off, r12) =>
  if r12 = [] ∧ 1 ≤ mo ∧ mo ≤ 12 ∧ 1 ≤ d ∧ d ≤ daysInMonth y mo ∧
      h ≤ 23 ∧ mi ≤ 59 ∧ sec ≤ 59 then
    some ⟨y, mo, d, h, mi, sec, off⟩
  else none

def ParseTimestamp (s : String) : Option DateTime := parseTSChars s.data

@[simp] theorem data_mk (l : List Char) : (String.mk l).data = l := rfl

theorem readDigit_digitC (d : Nat) (h : d < 10) : readDigit (digitC d) = some d := by
  interval_cases d <;> decide

theorem read2_pad2 (n : Nat) (h : n < 100) (rest : List Char) :
    read2 (pad2 n ++ rest) = some (n, rest) := by
  have h1 : n / 10 < 10 := by omega
  have h2 : n % 10 < 10 := by omega
  simp [pad2, read2, readDigit_digitC _ h1, readDigit_digitC _ h2]
  omega

theorem read4_pad4 (n : Nat) (h : n < 10000) (rest : List Char) :
    read4 (pad4 n ++ rest) = some (n, rest) := by
  have h1 : n / 1000 < 10 := by omega
  have h2 : n / 100 % 10 < 10 := by omega
  have h3 : n / 10 % 10 < 10 := by omega
  have h4 : n % 10 < 10 := by omega
  simp [pad4, read4, readDigit_digitC _ h1, readDigit_digitC _ h2,
    readDigit_digitC _ h3, readDigit_digitC _ h4]
  omega

theorem readOffset_offsetChars (off : Int) (hl : -(23 * 60 + 59 : Int) ≤ off)
    (hu : off ≤ 23 * 60 + 59) (rest : List Char) :
    readOffset (offsetChars off ++ rest) = some (off, rest) := by
  by_cases h0 : off = 0
  · subst h0
    simp [offsetChars, readOffset]
  · have habs : off.natAbs ≤ 23 * 60 + 59 := by omega
    have hdiv : off.natAbs / 60 < 100 := by omega
    have hmod : off.natAbs % 60 < 100 := by omega
    have hsum : (off.natAbs / 60) * 60 + off.natAbs % 60 = off.natAbs := by omega
    by_cases hneg : off < 0
    · have hval : -((off.natAbs / 60 * 60 + off.natAbs % 60 : Nat) : Int) = off := by
        rw [hsum]; omega
      simp only [offsetChars, if_neg h0, if_pos hneg, List.cons_append, List.append_assoc,
        List.cons_append]
      rw [readOffset]
      rw [read2_pad2 _ hdiv]
      dsimp only
      rw [expectC_same]
      dsimp only
      rw [read2_pad2 _ hmod]
      dsimp only
      rw [hval]
    · have hval : ((off.natAbs / 60 * 60 + off.natAbs % 60 : Nat) : Int) = off := by
        rw [hsum]; omega
      simp only [offsetChars, if_neg h0, if_neg hneg, List.cons_append, List.append_assoc,
        List.cons_append]
      rw [readOffset]
      rw [read2_pad2 _ hdiv]
      dsimp only
      rw [expectC_same]
      dsimp only
      rw [read2_pad2 _ hmod]
      dsimp only
      rw [hval]

/-- C5: for every instant truncated to whole seconds carrying a fixed UTC
offset (a valid DateTime), parsing the formatted timestamp succeeds and
returns an instant equal to the original. -/
theorem parseTimestamp_formatTimestamp_roundtrip (t : DateTime) (h : t.Valid) :
    ParseTimestamp (FormatTimestamp t) = some t := by
  obtain ⟨y, mo, d, hh, mi, sec, off⟩ := t
  obtain ⟨hy1, hy2, hmo1, hmo2, hd1, hd2, hhh, hmi, hsec, hof1, hof2⟩ := h
  simp only at hy1 hy2 hmo1 hmo2 hd1 hd2 hhh hmi hsec hof1 hof2
  have hoff : readOffset (offsetChars off) = some (off, []) := by
    have := readOffset_offsetChars off hof1 hof2 []
    simpa using this
  have hd100 : d < 100 := by
    have hdm := hd2
    unfold daysInMonth at hdm
    split_ifs at hdm <;> omega
  unfold ParseTimestamp FormatTimestamp parseTSChars
  rw [data_mk]
  dsimp only
  simp only [List.cons_append, List.append_assoc]
  simp only [read4_pad4 y (by omega), expectC_same, read2_pad2 mo (by omega),
    read2_pad2 d hd100, read2_pad2 hh (by omega), read2_pad2 mi (by omega),
    read2_pad2 sec (by omega), hoff]
  rw [if_pos ⟨trivial, hmo1, hmo2, hd1, hd2, hhh, hmi, hsec⟩]

/-- Concrete instance of the C5 round trip. -/
theorem parseTimestamp_formatTimestamp_roundtrip_witness :
    ParseTimestamp (FormatTimestamp ⟨2024, 3, 15, 10, 30, 45, -300⟩) =
      some ⟨2024, 3, 15, 10, 30, 45, -300⟩ :=
  parseTimestamp_formatTimestamp_roundtrip _ (by decide)

/-! ### Glob matching (matchesPattern in internal/ruleset/service.go)

The Go function is a two-pointer loop with single-star backtracking over
byte indices i (text), j (pattern), starIdx and matchIdx.  mpLoop embeds it
over suffix lists: rt is the text from i, rp the pattern from j, and saved
carries, when a star has been seen, the pair (text from matchIdx, pattern
from starIdx+1).  A fuel argument makes the loop's termination explicit;
matchesPattern supplies fuel that the correctness proof shows sufficient.
In the Go loop matchIdx < len(text) always holds when a backtrack fires, so
the saved text is never empty there; the unreachable empty case returns
false. -/

def mpLoop : Nat → List Char → List Char → Option (List Char × List Char) → Bool
  | 0, _, _, _ => false
  | Nat.succ fuel, rt, rp, saved =>
    match rt with
    | [] => (rp.dropWhile (fun q => q == '*')).isEmpty
    | c :: rt' =>
      match rp with
      | q :: rp' =>
        if q == '?' || q == c then mpLoop fuel rt' rp' saved
        else if q == '*' then mpLoop fuel (c :: rt') rp' (some (c :: rt', rp'))
        else
          match saved with
          | some (st, sp) =>
            match st with
            | _ :: st' => mpLoop fuel st' sp (some (st', sp))
            | [] => false
          | none => false
      | [] =>
        match saved with
        | some (st, sp) =>
          match st with
          | _ :: st' => mpLoop fuel st' sp (some (st', sp))
          | [] => false
        | none => false

/-- matchesPattern(text, pattern) of service.go. -/
def matchesPattern (text pat : String) : Bool :=
  mpLoop ((text.data.length + 1) * (text.data.length + pat.data.length + 2))
    text.data pat.data none

/-- Anchored glob semantics as the spec states them: a star matches any run
of characters including the empty run, a question mark matches exactly one
character, and any other pattern character matches itself literally; the
whole text must be consumed. -/
inductive Glob : List Char → List Char → Prop where
  | nil : Glob [] []
  | qmark (c : Char) (t p : List Char) : Glob t p → Glob (c :: t) ('?' :: p)
  | lit (q : Char) (t p : List Char) : q ≠ '*' → q ≠ '?' → Glob t p → Glob (q :: t) (q :: p)
  | starSkip (t p : List Char) : Glob t p → Glob t ('*' :: p)
  | starTake (c : Char) (t p : List Char) : Glob t ('*' :: p) → Glob (c :: t) ('*' :: p)

/-- Reference matcher: the direct recursive decision procedure for Glob. -/
def globMatch : List Char → List Char → Bool
  | [], [] => true
  | [], q :: p => q == '*' && globMatch [] p
  | _ :: _, [] => false
  | c :: t, q :: p =>
    if q = '*' then globMatch (c :: t) p || globMatch t (q :: p)
    else (q == '?' || q == c) && globMatch t p
termination_by t p => (t.length, p.length)

/-! ### Tags encoding (encoding/json on []string)

Create stores tags as the JSON array json.Marshal produces (with Go's
default HTML escaping), and Get decodes it with json.Unmarshal into a
[]string.  The model covers JSON arrays of strings and the null literal
(Go encodes a nil slice as null and decodes null by leaving the slice nil);
escape sequences are decoded including \uXXXX code points, with surrogate
pairs outside the modelled subset (a lone surrogate decodes to the
replacement character, as in Go). -/

def hexDigitC (n : Nat) : Char := if n < 10 then digitC n else Char.ofNat (87 + n)

def escapeChar (c : Char) : List Char :=
  if c = '"' then ['\\', '"']
  else if c = '\\' then ['\\', '\\']
  else if c = '\n' then ['\\', 'n']
  else if c = '\r' then ['\\', 'r']
  else if c = '\t' then ['\\', 't']
  else if c.toNat < 32 then ['\\', 'u', '0', '0', hexDigitC (c.toNat / 16), hexDigitC (c.toNat % 16)]
  else if c = '<' then ['\\', 'u', '0', '0', '3', 'c']
  else if c = '>' then ['\\', 'u', '0', '0', '3', 'e']
  else if c = '&' then ['\\', 'u', '0', '0', '2', '6']
  else if c.toNat = 0x2028 then ['\\', 'u', '2', '0', '2', '8']
  else if c.toNat = 0x2029 then ['\\', 'u', '2', '0', '2', '9']
  else [c]

def encodeJSONString (s : String) : List Char :=
  '"' :: (s.data.map escapeChar).flatten ++ ['"']

def tagsToJSON (tags : List String) : String :=
  String.mk ('[' :: (List.intercalate [','] (tags.map encodeJSONString)) ++ [']'])

def skipWS : List Char → List Char
  | c :: rest => if c = ' ' ∨ c = '\t' ∨ c = '\n' ∨ c = '\r' then skipWS rest else c :: rest
  | [] => []

def hexVal (c : Char) : Option Nat :=
  if '0' ≤ c ∧ c ≤ '9' then some (c.toNat - 48)
  else if 'a' ≤ c ∧ c ≤ 'f' then some (c.toNat - 87)
  else if 'A' ≤ c ∧ c ≤ 'F' then some (c.toNat - 55)
  else none

def escDecode (c : Char) : Option Char :=
  if c = '"' then some '"'
  else if c = '\\' then some '\\'
  else if c = '/' then some '/'
  else if c = 'b' then some (Char.ofNat 8)
  else if c = 'f' then some (Char.ofNat 12)
  else if c = 'n' then some '\n'
  else if c = 'r' then some '\r'
  else if c = 't' then some '\t'
  else none

def parseStrBody : List Char → List Char → Option (String × List Char)
  | acc, '"' :: rest => some (String.mk acc.reverse, rest)
  | acc, '\\' :: e :: rest =>
    if e = 'u' then
      match rest with
      | h1 :: h2 :: h3 :: h4 :: rest' =>
        match hexVal h1, hexVal h2, hexVal h3, hexVal h4 with
        | some v1, some v2, some v3, some v4 =>
          let code := ((v1 * 16 + v2) * 16 + v3) * 16 + v4
          let ch := if 0xD800 ≤ code ∧ code < 0xE000 then Char.ofNat 0xFFFD else Char.ofNat code
          parseStrBody (ch :: acc) rest'
        | _, _, _, _ => none
      | _ => none
    else
      match escDecode e with
      | some ch => parseStrBody (ch :: acc) rest
      | none => none
  | acc, c :: rest =>
    if c.toNat < 32 then none else parseStrBody (c :: acc) rest
  | _, [] => none
termination_by _ l => l.length

/-- After one array element: a comma and a further string, or the closing
bracket followed only by whitespace. -/
def parseTagsRest : Nat → List Char → List String → Option (List String)
  | 0, _, _ => none
  | Nat.succ fuel, cs, acc =>
    match skipWS cs with
    | ']' :: rest => if skipWS rest = [] then some acc.reverse else none
    | ',' :: rest =>
      match skipWS rest with
      | '"' :: rest' =>
        match parseStrBody [] rest' with
        | some (s, rest2) => parseTagsRest fuel rest2 (s :: acc)
        | none => none
      | _ => none
    | _ => none

def parseTagsJSON (s : String) : Option (List String) :=
  match skipWS s.data with
  | 'n' :: 'u' :: 'l' :: 'l' :: rest => if skipWS rest = [] then some [] else none
  | '[' :: rest =>
    match skipWS rest with
    | ']' :: rest' => if skipWS rest' = [] then some [] else none
    | '"' :: rest' =>
      match parseStrBody [] rest' with
      | some (str, rest2) => parseTagsRest s.data.length rest2 [str]
      | none => none
    | _ => none
  | _ => none

/-! ### The store service (internal/ruleset/service.go)

The Valkey client is modelled as an association list from storage keys to
field maps, plus a fault flag making Scan fail (the only store fault the
claims need).  Every mutating operation returns its result together with
the post-state, so that failed operations visibly leave the store
untouched.  Entries are hashes under keys "ruleset:" ++ name; ListNames
and Search strip the 8-character prefix exactly as the Go code does
(len(key) > 8 && key[:8] == "ruleset:"). -/

inductive Err where
  | invalidName (msg : String)
  | duplicateName (name : String) (existing : Option (List String))
  | notFound (name : String) (existing : Option (List String))
  | emptyPattern
  | storeError (msg : String)
deriving DecidableEq, Repr

abbrev Fields := List (String × String)

structure Valkey where
  data : List (String × Fields)
  scanFails : Bool
deriving DecidableEq, Repr

structure Ruleset where
  name : String
  description : String
  tags : List String
  markdown : String
  createdAt : DateTime
  lastModified : DateTime
deriving DecidableEq, Repr

/-- The RulesetUpdate partial-update descriptor: each field is
independently present or absent. -/
structure RulesetUpdate where
  description : Option String
  tags : Option (List String)
  markdown : Option String
deriving DecidableEq, Repr

def mkKey (name : String) : String := "ruleset:" ++ name

def existsKey (v : Valkey) (key : String) : Bool := (lookupA v.data key).isSome

/-- The Go prefix strip: keys longer than 8 bytes starting with
"ruleset:" yield the remainder as a name. -/
def stripKey (k : String) : Option String :=
  match k.data with
  | 'r' :: 'u' :: 'l' :: 'e' :: 's' :: 'e' :: 't' :: ':' :: rest =>
    if rest.isEmpty then none else some (String.mk rest)
  | _ => none

/-- ListNames when Scan succeeds: every key of the store, stripped. -/
def listNamesOf (v : Valkey) : List String := v.data.filterMap (fun e => stripKey e.1)

/-- HSET on one hash: set each given field in order. -/
def hsetFields (old new : Fields) : Fields :=
  new.foldl (fun acc p => upsertA acc p.1 p.2) old

def hsetStore (v : Valkey) (key : String) (fields : Fields) : Valkey :=
  { v with data := upsertA v.data key (hsetFields ((lookupA v.data key).getD []) fields) }

def delStore (v : Valkey) (key : String) : Valkey :=
  { v with data := v.data.filter (fun e => e.1 ≠ key) }

/-- Service.Create. -/
def CreateOp (v : Valkey) (r : Ruleset) (now : DateTime) : Except Err Ruleset × Valkey :=
  match ValidateRulesetName r.name with
  | .error e => (.error (.invalidName e), v)
  | .ok () =>
    if existsKey v (mkKey r.name) then
      if v.scanFails then (.error (.duplicateName r.name none), v)
      else (.error (.duplicateName r.name (some (listNamesOf v))), v)
    else
      let r' := { r with createdAt := now, lastModified := now }
      let fields : Fields :=
        [("description", r'.description), ("tags", tagsToJSON r'.tags),
         ("markdown", r'.markdown), ("created_at", FormatTimestamp now),
         ("last_modified", FormatTimestamp now)]
      (.ok r', hsetStore v (mkKey r.name) fields)

/-- Get's decode of the tags field: absent stays nil, present must parse. -/
def decodeTags : Option String → Except Err (List String)
  | none => .ok []
  | some s =>
    match parseTagsJSON s with
    | none => .error (.storeError "failed to parse tags")
    | some ts => .ok ts

/-- Get's decode of a timestamp field: absent stays the zero time, present
must parse. -/
def decodeTime (field : String) : Option String → Except Err DateTime
  | none => .ok DateTime.zero
  | some s =>
    match ParseTimestamp s with
    | none => .error (.storeError ("failed to parse " ++ field))
    | some dt => .ok dt

/-- Service.Get. -/
def GetOp (v : Valkey) (name : String) : Except Err Ruleset :=
  match ValidateRulesetName name with
  | .error e => .error (.invalidName e)
  | .ok () =>
    let f := (lookupA v.data (mkKey name)).getD []
    if f = [] then .error (.notFound name none)
    else
      match decodeTags (lookupA f "tags") with
      | .error e => .error e
      | .ok tags =>
        match decodeTime "created_at" (lookupA f "created_at") with
        | .error e => .error e
        | .ok ca =>
          match decodeTime "last_modified" (lookupA f "last_modified") with
          | .error e => .error e
          | .ok lm =>
            .ok ⟨name, (lookupA f "description").getD "", tags,
                 (lookupA f "markdown").getD "", ca, lm⟩

/-- The fields Update stages: each field present in the descriptor, then
always last_modified. -/
def stagedFields (upd : RulesetUpdate) (now : DateTime) : Fields :=
  (match upd.description with
   | some d => [("description", d)]
   | none => []) ++
  (match upd.tags with
   | some ts => [("tags", tagsToJSON ts)]
   | none => []) ++
  (match upd.markdown with
   | some m => [("markdown", m)]
   | none => []) ++
  [("last_modified", FormatTimestamp now)]

/-- Service.Update: validate, check existence, stage fields, and write
them unless only last_modified was staged, in which case return early
without writing. -/
def UpdateOp (v : Valkey) (name : String) (upd : RulesetUpdate) (now : DateTime) :
    Except Err Unit × Valkey :=
  match ValidateRulesetName name with
  | .error e => (.error (.invalidName e), v)
  | .ok () =>
    if existsKey v (mkKey name) then
      let fields := stagedFields upd now
      if fields.length = 1 then (.ok (), v)
      else (.ok (), hsetStore v (mkKey name) fields)
    else (.error (.notFound name none), v)

/-- Service.Delete. -/
def DeleteOp (v : Valkey) (name : String) : Except Err Unit × Valkey :=
  match ValidateRulesetName name with
  | .error e => (.error (.invalidName e), v)
  | .ok () =>
    if existsKey v (mkKey name) then (.ok (), delStore v (mkKey name))
    else if v.scanFails then (.error (.notFound name none), v)
    else (.error (.notFound name (some (listNamesOf v))), v)

/-- Service.Search: empty-pattern check, then a scan filtered through
matchesPattern against "ruleset:" ++ pattern, then a Get per match with
failures skipped. -/
def SearchOp (v : Valkey) (pat : String) : Except Err (List Ruleset) :=
  if pat = "" then .error .emptyPattern
  else if v.scanFails then .error (.storeError "failed to search rulesets")
  else
    let keyPat := "ruleset:" ++ pat
    let names := v.data.filterMap (fun e =>
      match stripKey e.1 with
      | some nm => if matchesPattern e.1 keyPat then some nm else none
      | none => none)
    .ok (names.filterMap (fun nm =>
      match GetOp v nm with
      | .ok r => some r
      | .error _ => none))

/-- A concrete one-entry store used by the witnesses below. -/
def sampleStore : Valkey :=
  ⟨[(mkKey "demo",
     [("description", "d"), ("tags", "[]"), ("markdown", "m"),
      ("created_at", "2024-01-01T00:00:00Z"), ("last_modified", "2024-01-01T00:00:00Z")])],
   false⟩

/-- C9: Search with the empty pattern fails with EmptyPattern for every
store state whatsoever — the result does not depend on the store, so no
store access can influence it. -/
theorem search_empty_pattern (v : Valkey) :
    SearchOp v "" = .error .emptyPattern := rfl

/-- C1 (amended): Update on an existing ruleset with a descriptor that has
none of description, tags, markdown present succeeds but returns before
writing anything: the store, and in particular the stored last_modified,
is unchanged. -/
theorem update_noFields_skipsWrite (v : Valkey) (name : String) (upd : RulesetUpdate)
    (now : DateTime) (hv : ValidateRulesetName name = .ok ())
    (hex : existsKey v (mkKey name) = true)
    (hd : upd.description = none) (ht : upd.tags = none) (hm : upd.markdown = none) :
    UpdateOp v name upd now = (.ok (), v) := by
  unfold UpdateOp
  rw [hv]
  simp [hex, stagedFields, hd, ht, hm]

/-- Concrete instance of the amended C1 statement. -/
theorem update_noFields_skipsWrite_witness :
    UpdateOp sampleStore "demo" ⟨none, none, none⟩ ⟨2024, 1, 2, 0, 0, 0, 0⟩ =
      (.ok (), sampleStore) :=
  update_noFields_skipsWrite _ _ _ _ (by decide) (by decide) rfl rfl rfl

/-- C1 counterexample: after creating a ruleset at time t0, a no-field
Update at the later time t1 succeeds, yet the stored last_modified still
holds the t0 timestamp, not the current time t1 — the claim that a
no-field update bumps last_modified is false on the code. -/
theorem update_noFields_counterexample :
    (UpdateOp sampleStore "demo" ⟨none, none, none⟩ ⟨2024, 1, 2, 0, 0, 0, 0⟩).1 = .ok () ∧
    (UpdateOp sampleStore "demo" ⟨none, none, none⟩ ⟨2024, 1, 2, 0, 0, 0, 0⟩).2 = sampleStore ∧
    lookupA ((lookupA sampleStore.data (mkKey "demo")).getD []) "last_modified" =
      some "2024-01-01T00:00:00Z" ∧
    FormatTimestamp ⟨2024, 1, 2, 0, 0, 0, 0⟩ = "2024-01-02T00:00:00Z" := by
  refine ⟨?_, ?_, by decide, by decide⟩ <;> decide

/-- C3: Create on an existing name fails with DuplicateName whose payload
carries the full current list of existing names when listing succeeds, and
falls back to the plain duplicate error when the scan fails; the store is
left unchanged either way. -/
theorem create_duplicate_error (v : Valkey) (r : Ruleset) (now : DateTime)
    (hv : ValidateRulesetName r.name = .ok ())
    (hex : existsKey v (mkKey r.name) = true) :
    (CreateOp v r now).2 = v ∧
    (CreateOp v r now).1 =
      (if v.scanFails then .error (.duplicateName r.name none)
       else .error (.duplicateName r.name (some (listNamesOf v)))) := by
  unfold CreateOp
  rw [hv]
  by_cases hf : v.scanFails <;> simp [hex, hf]

/-- Concrete instance of C3: the duplicate Create fails carrying the one
existing name and leaves the store unchanged. -/
theorem create_duplicate_error_witness :
    (CreateOp sampleStore ⟨"demo", "x", [], "y", DateTime.zero, DateTime.zero⟩
      ⟨2024, 1, 2, 0, 0, 0, 0⟩).2 = sampleStore ∧
    (CreateOp sampleStore ⟨"demo", "x", [], "y", DateTime.zero, DateTime.zero⟩
      ⟨2024, 1, 2, 0, 0, 0, 0⟩).1 =
      (if sampleStore.scanFails then .error (.duplicateName "demo" none)
       else .error (.duplicateName "demo" (some (listNamesOf sampleStore)))) :=
  create_duplicate_error sampleStore _ _ (by decide) (by decide)

theorem lookupA_eq_none_of_not_mem {α : Type} (l : List (String × α)) (g : String)
    (h : g ∉ l.map Prod.fst) : lookupA l g = none := by
  induction l with
  | nil => rfl
  | cons p rest ih =>
    obtain ⟨k, x⟩ := p
    rw [List.map_cons, List.mem_cons] at h
    push_neg at h
    obtain ⟨h1, h2⟩ := h
    rw [lookupA_cons, if_neg (fun he : k = g => h1 he.symm), ih h2]

/-- Lookup after an HSET whose new fields have pairwise-distinct names:
a written field reads back its new value, everything else reads the old
hash. -/
theorem lookupA_hsetFields (new old : Fields) (hnd : (new.map Prod.fst).Nodup)
    (g : String) :
    lookupA (hsetFields old new) g =
      match lookupA new g with
      | some x => some x
      | none => lookupA old g := by
  induction new generalizing old with
  | nil => rfl
  | cons p rest ih =>
    obtain ⟨k, x⟩ := p
    simp only [List.map_cons, List.nodup_cons] at hnd
    obtain ⟨hknotin, hndrest⟩ := hnd
    have hstep : hsetFields old ((k, x) :: rest) = hsetFields (upsertA old k x) rest := rfl
    rw [hstep, ih _ hndrest]
    by_cases hkg : k = g
    · subst hkg
      have hrest : lookupA rest k = none := lookupA_eq_none_of_not_mem rest k hknotin
      simp [hrest, lookupA_upsertA]
    · simp only [lookupA_cons, if_neg hkg]
      cases lookupA rest g with
      | some y => rfl
      | none => simp [lookupA_upsertA, hkg]

theorem stagedFields_lookup_description (upd : RulesetUpdate) (now : DateTime) :
    lookupA (stagedFields upd now) "description" = upd.description := by
  obtain ⟨od, ot, om⟩ := upd
  rcases od with _ | d <;> rcases ot with _ | ts <;> rcases om with _ | m <;>
    simp [stagedFields]

theorem stagedFields_lookup_tags (upd : RulesetUpdate) (now : DateTime) :
    lookupA (stagedFields upd now) "tags" = upd.tags.map tagsToJSON := by
  obtain ⟨od, ot, om⟩ := upd
  rcases od with _ | d <;> rcases ot with _ | ts <;> rcases om with _ | m <;>
    simp [stagedFields]

theorem stagedFields_lookup_markdown (upd : RulesetUpdate) (now : DateTime) :
    lookupA (stagedFields upd now) "markdown" = upd.markdown := by
  obtain ⟨od, ot, om⟩ := upd
  rcases od with _ | d <;> rcases ot with _ | ts <;> rcases om with _ | m <;>
    simp [stagedFields]

theorem stagedFields_lookup_other (upd : RulesetUpdate) (now : DateTime) (g : String)
    (h1 : g ≠ "description") (h2 : g ≠ "tags") (h3 : g ≠ "markdown")
    (h4 : g ≠ "last_modified") :
    lookupA (stagedFields upd now) g = none := by
  obtain ⟨od, ot, om⟩ := upd
  rcases od with _ | d <;> rcases ot with _ | ts <;> rcases om with _ | m <;>
    simp [stagedFields, Ne.symm h1, Ne.symm h2, Ne.symm h3, Ne.symm h4]

theorem stagedFields_nodup (upd : RulesetUpdate) (now : DateTime) :
    ((stagedFields upd now).map Prod.fst).Nodup := by
  obtain ⟨od, ot, om⟩ := upd
  rcases od with _ | d <;> rcases ot with _ | ts <;> rcases om with _ | m <;>
    simp [stagedFields]

theorem stagedFields_length_one (upd : RulesetUpdate) (now : DateTime)
    (h : (stagedFields upd now).length = 1) :
    upd.description = none ∧ upd.tags = none ∧ upd.markdown = none := by
  obtain ⟨od, ot, om⟩ := upd
  rcases od with _ | d <;> rcases ot with _ | ts <;> rcases om with _ | m <;>
    simp_all [stagedFields]

/-- C7: a successful Update writes only the fields present in the
descriptor plus last_modified: every key other than the updated entry is
untouched, every field absent from the descriptor reads back its previous
stored string byte-identically, every present field reads back the staged
value, created_at is never written, and any field outside
description/tags/markdown/last_modified is untouched. -/
theorem update_frame (v : Valkey) (name : String) (upd : RulesetUpdate) (now : DateTime)
    (v' : Valkey) (heq : UpdateOp v name upd now = (.ok (), v')) :
    (∀ k, k ≠ mkKey name → lookupA v'.data k = lookupA v.data k) ∧
    (∀ f, lookupA v.data (mkKey name) = some f →
      ∃ f', lookupA v'.data (mkKey name) = some f' ∧
        (upd.description = none → lookupA f' "description" = lookupA f "description") ∧
        (∀ d, upd.description = some d → lookupA f' "description" = some d) ∧
        (upd.tags = none → lookupA f' "tags" = lookupA f "tags") ∧
        (∀ ts, upd.tags = some ts → lookupA f' "tags" = some (tagsToJSON ts)) ∧
        (upd.markdown = none → lookupA f' "markdown" = lookupA f "markdown") ∧
        (∀ m, upd.markdown = some m → lookupA f' "markdown" = some m) ∧
        lookupA f' "created_at" = lookupA f "created_at" ∧
        (∀ g, g ≠ "description" → g ≠ "tags" → g ≠ "markdown" → g ≠ "last_modified" →
          lookupA f' g = lookupA f g)) := by
  unfold UpdateOp at heq
  cases hval : ValidateRulesetName name with
  | error e => rw [hval] at heq; simp at heq
  | ok u =>
    cases u
    rw [hval] at heq
    by_cases hex : existsKey v (mkKey name) = true
    · simp only [hex, if_true] at heq
      by_cases hlen : (stagedFields upd now).length = 1
      · rw [if_pos hlen] at heq
        obtain ⟨hd, ht, hm⟩ := stagedFields_length_one upd now hlen
        have hv' : v' = v := by
          have := congrArg Prod.snd heq
          simpa using this.symm
        subst hv'
        refine ⟨fun k _ => rfl, fun f hf => ⟨f, hf, fun _ => rfl, ?_, fun _ => rfl, ?_,
          fun _ => rfl, ?_, rfl, fun g _ _ _ _ => rfl⟩⟩
        · intro d hdd; rw [hd] at hdd; cases hdd
        · intro ts htt; rw [ht] at htt; cases htt
        · intro m hmm; rw [hm] at hmm; cases hmm
      · rw [if_neg hlen] at heq
        have hv' : v' = hsetStore v (mkKey name) (stagedFields upd now) := by
          have := congrArg Prod.snd heq
          simpa using this.symm
        subst hv'
        constructor
        · intro k hk
          unfold hsetStore
          simp only
          rw [lookupA_upsertA]
          rw [if_neg (fun he : mkKey name = k => hk he.symm)]
        · intro f hf
          unfold hsetStore
          simp only
          rw [lookupA_upsertA, if_pos rfl]
          refine ⟨hsetFields ((lookupA v.data (mkKey name)).getD []) (stagedFields upd now),
            rfl, ?_, ?_, ?_, ?_, ?_, ?_, ?_, ?_⟩ <;>
            rw [hf] <;>
            simp only [Option.getD_some]
          · intro hd
            rw [lookupA_hsetFields _ _ (stagedFields_nodup upd now),
              stagedFields_lookup_description, hd]
          · intro d hd
            rw [lookupA_hsetFields _ _ (stagedFields_nodup upd now),
              stagedFields_lookup_description, hd]
          · intro ht
            rw [lookupA_hsetFields _ _ (stagedFields_nodup upd now),
              stagedFields_lookup_tags, ht]
            rfl
          · intro ts ht
            rw [lookupA_hsetFields _ _ (stagedFields_nodup upd now),
              stagedFields_lookup_tags, ht]
            rfl
          · intro hm
            rw [lookupA_hsetFields _ _ (stagedFields_nodup upd now),
              stagedFields_lookup_markdown, hm]
          · intro m hm
            rw [lookupA_hsetFields _ _ (stagedFields_nodup upd now),
              stagedFields_lookup_markdown, hm]
          · rw [lookupA_hsetFields _ _ (stagedFields_nodup upd now),
              stagedFields_lookup_other upd now _ (by decide) (by decide) (by decide)
                (by decide)]
          · intro g h1 h2 h3 h4
            rw [lookupA_hsetFields _ _ (stagedFields_nodup upd now),
              stagedFields_lookup_other upd now g h1 h2 h3 h4]
    · simp only [hex] at heq
      simp at heq

/-- Concrete instance of C7: updating only the description of the sample
store's entry leaves tags and created_at byte-identical. -/
theorem update_frame_witness :
    ∃ f', lookupA (UpdateOp sampleStore "demo" ⟨some "nd", none, none⟩
        ⟨2024, 1, 2, 0, 0, 0, 0⟩).2.data (mkKey "demo") = some f' ∧
      lookupA f' "description" = some "nd" ∧
      lookupA f' "tags" = some "[]" ∧
      lookupA f' "created_at" = some "2024-01-01T00:00:00Z" := by
  have h := update_frame sampleStore "demo" ⟨some "nd", none, none⟩
    ⟨2024, 1, 2, 0, 0, 0, 0⟩
    (UpdateOp sampleStore "demo" ⟨some "nd", none, none⟩ ⟨2024, 1, 2, 0, 0, 0, 0⟩).2
    (by decide)
  obtain ⟨-, hentry⟩ := h
  obtain ⟨f', hf', hc⟩ := hentry
    [("description", "d"), ("tags", "[]"), ("markdown", "m"),
     ("created_at", "2024-01-01T00:00:00Z"), ("last_modified", "2024-01-01T00:00:00Z")]
    (by decide)
  refine ⟨f', hf', ?_, ?_, ?_⟩
  · exact hc.2.1 "nd" rfl
  · rw [hc.2.2.1 rfl]; decide
  · rw [hc.2.2.2.2.2.2.1]; decide

@[simp] theorem decodeTags_none : decodeTags none = .ok [] := rfl

theorem decodeTags_some_fail (s : String) (hp : parseTagsJSON s = none) :
    decodeTags (some s) = .error (.storeError "failed to parse tags") := by
  simp only [decodeTags, hp]

theorem decodeTags_some_ok (s : String) (ts : List String)
    (hp : parseTagsJSON s = some ts) : decodeTags (some s) = .ok ts := by
  simp only [decodeTags, hp]

theorem decodeTags_error_shape (o : Option String) (e : Err)
    (h : decodeTags o = .error e) : ∃ msg, e = .storeError msg := by
  cases o with
  | none => cases h
  | some s =>
    cases hp : parseTagsJSON s with
    | none =>
      rw [decodeTags_some_fail s hp] at h
      cases h
      exact ⟨_, rfl⟩
    | some ts => rw [decodeTags_some_ok s ts hp] at h; cases h

@[simp] theorem decodeTime_none (field : String) :
    decodeTime field none = .ok DateTime.zero := rfl

theorem decodeTime_some_fail (field s : String) (hp : ParseTimestamp s = none) :
    decodeTime field (some s) = .error (.storeError ("failed to parse " ++ field)) := by
  simp only [decodeTime, hp]

theorem decodeTime_some_ok (field s : String) (dt : DateTime)
    (hp : ParseTimestamp s = some dt) : decodeTime field (some s) = .ok dt := by
  simp only [decodeTime, hp]

theorem decodeTime_error_shape (field : String) (o : Option String) (e : Err)
    (h : decodeTime field o = .error e) : ∃ msg, e = .storeError msg := by
  cases o with
  | none => cases h
  | some s =>
    cases hp : ParseTimestamp s with
    | none =>
      rw [decodeTime_some_fail field s hp] at h
      cases h
      exact ⟨_, rfl⟩
    | some dt => rw [decodeTime_some_ok field s dt hp] at h; cases h

/-- Get on a valid name with a non-empty field map is the decode chain. -/
theorem getOp_unfold (v : Valkey) (name : String)
    (hv : ValidateRulesetName name = .ok ())
    (hne : (lookupA v.data (mkKey name)).getD [] ≠ []) :
    GetOp v name =
      (match decodeTags (lookupA ((lookupA v.data (mkKey name)).getD []) "tags") with
       | .error e => .error e
       | .ok tags =>
         match decodeTime "created_at"
             (lookupA ((lookupA v.data (mkKey name)).getD []) "created_at") with
         | .error e => .error e
         | .ok ca =>
           match decodeTime "last_modified"
               (lookupA ((lookupA v.data (mkKey name)).getD []) "last_modified") with
           | .error e => .error e
           | .ok lm =>
             .ok ⟨name, (lookupA ((lookupA v.data (mkKey name)).getD []) "description").getD "",
                  tags, (lookupA ((lookupA v.data (mkKey name)).getD []) "markdown").getD "",
                  ca, lm⟩) := by
  unfold GetOp
  rw [hv, if_neg hne]

/-- C6: for a valid name, Get fails with NotFound exactly when the store
holds no fields for the key; a present-but-undecodable tags or timestamp
field makes Get fail with a StoreError instead of defaulting. -/
theorem get_notFound_and_decode_errors (v : Valkey) (name : String)
    (hv : ValidateRulesetName name = .ok ()) :
    ((GetOp v name = .error (.notFound name none)) ↔
      (lookupA v.data (mkKey name)).getD [] = []) ∧
    (∀ s, lookupA ((lookupA v.data (mkKey name)).getD []) "tags" = some s →
      parseTagsJSON s = none → ∃ msg, GetOp v name = .error (.storeError msg)) ∧
    (∀ s, lookupA ((lookupA v.data (mkKey name)).getD []) "created_at" = some s →
      ParseTimestamp s = none → ∃ msg, GetOp v name = .error (.storeError msg)) ∧
    (∀ s, lookupA ((lookupA v.data (mkKey name)).getD []) "last_modified" = some s →
      ParseTimestamp s = none → ∃ msg, GetOp v name = .error (.storeError msg)) := by
  by_cases hf : (lookupA v.data (mkKey name)).getD [] = []
  · have hget : GetOp v name = .error (.notFound name none) := by
      unfold GetOp
      rw [hv, if_pos hf]
    refine ⟨by simp [hget, hf], ?_, ?_, ?_⟩ <;>
      · intro s hs _
        rw [hf] at hs
        cases hs
  · rw [getOp_unfold v name hv hf]
    refine ⟨?_, ?_, ?_, ?_⟩
    · constructor
      · intro h
        exfalso
        rcases hdt : decodeTags (lookupA ((lookupA v.data (mkKey name)).getD []) "tags")
          with e | tags
        · rw [hdt] at h
          obtain ⟨msg, rfl⟩ := decodeTags_error_shape _ _ hdt
          simp at h
        · rw [hdt] at h
          rcases hdc : decodeTime "created_at"
              (lookupA ((lookupA v.data (mkKey name)).getD []) "created_at") with e | ca
          · rw [hdc] at h
            obtain ⟨msg, rfl⟩ := decodeTime_error_shape _ _ _ hdc
            simp at h
          · rw [hdc] at h
            rcases hdl : decodeTime "last_modified"
                (lookupA ((lookupA v.data (mkKey name)).getD []) "last_modified") with e | lm
            · rw [hdl] at h
              obtain ⟨msg, rfl⟩ := decodeTime_error_shape _ _ _ hdl
              simp at h
            · rw [hdl] at h
              simp at h
      · intro h
        exact absurd h hf
    · intro s hs hp
      rw [hs, decodeTags_some_fail s hp]
      exact ⟨"failed to parse tags", rfl⟩
    · intro s hs hp
      rcases hdt : decodeTags (lookupA ((lookupA v.data (mkKey name)).getD []) "tags")
        with e | tags
      · obtain ⟨msg, rfl⟩ := decodeTags_error_shape _ _ hdt
        exact ⟨msg, rfl⟩
      · rw [hs, decodeTime_some_fail "created_at" s hp]
        exact ⟨"failed to parse " ++ "created_at", rfl⟩
    · intro s hs hp
      rcases hdt : decodeTags (lookupA ((lookupA v.data (mkKey name)).getD []) "tags")
        with e | tags
      · obtain ⟨msg, rfl⟩ := decodeTags_error_shape _ _ hdt
        exact ⟨msg, rfl⟩
      · rcases hdc : decodeTime "created_at"
            (lookupA ((lookupA v.data (mkKey name)).getD []) "created_at") with e | ca
        · obtain ⟨msg, rfl⟩ := decodeTime_error_shape _ _ _ hdc
          exact ⟨msg, rfl⟩
        · rw [hs, decodeTime_some_fail "last_modified" s hp]
          exact ⟨"failed to parse " ++ "last_modified", rfl⟩

/-- Concrete instance of C6: a key with corrupt stored tags makes Get fail
with a StoreError. -/
theorem get_notFound_and_decode_errors_witness :
    ∃ msg, GetOp ⟨[(mkKey "demo", [("tags", "not json")])], false⟩ "demo" =
      .error (.storeError msg) :=
  (get_notFound_and_decode_errors ⟨[(mkKey "demo", [("tags", "not json")])], false⟩
    "demo" (by decide)).2.1 "not json" (by decide) (by decide)

/-- C10: for a valid name whose stored field map is non-empty, any of the
five fields that is absent from storage is silently defaulted (empty
description/markdown, empty tag list, zero timestamps) provided every
present field decodes; Get succeeds. -/
theorem get_missing_fields_default (v : Valkey) (name : String)
    (hv : ValidateRulesetName name = .ok ())
    (hne : (lookupA v.data (mkKey name)).getD [] ≠ [])
    (hta : ∀ s, lookupA ((lookupA v.data (mkKey name)).getD []) "tags" = some s →
      parseTagsJSON s ≠ none)
    (hca : ∀ s, lookupA ((lookupA v.data (mkKey name)).getD []) "created_at" = some s →
      ParseTimestamp s ≠ none)
    (hlm : ∀ s, lookupA ((lookupA v.data (mkKey name)).getD []) "last_modified" = some s →
      ParseTimestamp s ≠ none) :
    ∃ r, GetOp v name = .ok r ∧
      (lookupA ((lookupA v.data (mkKey name)).getD []) "description" = none →
        r.description = "") ∧
      (lookupA ((lookupA v.data (mkKey name)).getD []) "tags" = none → r.tags = []) ∧
      (lookupA ((lookupA v.data (mkKey name)).getD []) "markdown" = none →
        r.markdown = "") ∧
      (lookupA ((lookupA v.data (mkKey name)).getD []) "created_at" = none →
        r.createdAt = DateTime.zero) ∧
      (lookupA ((lookupA v.data (mkKey name)).getD []) "last_modified" = none →
        r.lastModified = DateTime.zero) := by
  obtain ⟨tags, ht⟩ : ∃ ts,
      decodeTags (lookupA ((lookupA v.data (mkKey name)).getD []) "tags") = .ok ts := by
    cases hs : lookupA ((lookupA v.data (mkKey name)).getD []) "tags" with
    | none => exact ⟨[], rfl⟩
    | some s =>
      cases hp : parseTagsJSON s with
      | none => exact absurd hp (hta s hs)
      | some ts => exact ⟨ts, decodeTags_some_ok s ts hp⟩
  obtain ⟨ca, hc⟩ : ∃ dt, decodeTime "created_at"
      (lookupA ((lookupA v.data (mkKey name)).getD []) "created_at") = .ok dt := by
    cases hs : lookupA ((lookupA v.data (mkKey name)).getD []) "created_at" with
    | none => exact ⟨DateTime.zero, rfl⟩
    | some s =>
      cases hp : ParseTimestamp s with
      | none => exact absurd hp (hca s hs)
      | some dt => exact ⟨dt, decodeTime_some_ok _ s dt hp⟩
  obtain ⟨lm, hl⟩ : ∃ dt, decodeTime "last_modified"
      (lookupA ((lookupA v.data (mkKey name)).getD []) "last_modified") = .ok dt := by
    cases hs : lookupA ((lookupA v.data (mkKey name)).getD []) "last_modified" with
    | none => exact ⟨DateTime.zero, rfl⟩
    | some s =>
      cases hp : ParseTimestamp s with
      | none => exact absurd hp (hlm s hs)
      | some dt => exact ⟨dt, decodeTime_some_ok _ s dt hp⟩
  rw [getOp_unfold v name hv hne, ht, hc, hl]
  refine ⟨_, rfl, ?_, ?_, ?_, ?_, ?_⟩
  · intro hd
    simp [hd]
  · intro hd
    rw [hd] at ht
    cases ht
    rfl
  · intro hd
    simp [hd]
  · intro hd
    rw [hd] at hc
    cases hc
    rfl
  · intro hd
    rw [hd] at hl
    cases hl
    rfl

/-- Concrete instance of C10: a stored entry holding only a description
yields a ruleset with empty tags, empty markdown and zero timestamps. -/
theorem get_missing_fields_default_witness :
    ∃ r, GetOp ⟨[(mkKey "demo", [("description", "d")])], false⟩ "demo" = .ok r ∧
      r.tags = [] ∧ r.markdown = "" ∧ r.createdAt = DateTime.zero ∧
      r.lastModified = DateTime.zero := by
  have e1 : lookupA ((lookupA (⟨[(mkKey "demo", [("description", "d")])], false⟩ :
      Valkey).data (mkKey "demo")).getD []) "tags" = none := by decide
  have e2 : lookupA ((lookupA (⟨[(mkKey "demo", [("description", "d")])], false⟩ :
      Valkey).data (mkKey "demo")).getD []) "created_at" = none := by decide
  have e3 : lookupA ((lookupA (⟨[(mkKey "demo", [("description", "d")])], false⟩ :
      Valkey).data (mkKey "demo")).getD []) "last_modified" = none := by decide
  obtain ⟨r, hr, _, h2, h3, h4, h5⟩ :=
    get_missing_fields_default ⟨[(mkKey "demo", [("description", "d")])], false⟩ "demo"
      (by decide) (by decide)
      (fun s hs => by rw [e1] at hs; cases hs)
      (fun s hs => by rw [e2] at hs; cases hs)
      (fun s hs => by rw [e3] at hs; cases hs)
  exact ⟨r, hr, h2 e1, h3 (by decide), h4 e2, h5 e3⟩

/-! ### Lifecycle invariant (C8)

Timestamps are compared as instants: civil date to epoch days (Howard
Hinnant's algorithm, matching Go's absolute-time arithmetic), then epoch
seconds minus the UTC offset.  A Step is one mutating service call with
its wall-clock reading; the clock hypothesis i ≤ now.instant says the
clock never decreases along a run. -/

def daysFromCivil (y m d : Int) : Int :=
  let y2 := if m ≤ 2 then y - 1 else y
  let era := (if 0 ≤ y2 then y2 else y2 - 399) / 400
  let yoe := y2 - era * 400
  let mp := (m + 9) % 12
  let doy := (153 * mp + 2) / 5 + d - 1
  let doe := yoe * 365 + yoe / 4 - yoe / 100 + doy
  era * 146097 + doe - 719468

def DateTime.instant (t : DateTime) : Int :=
  86400 * daysFromCivil t.year t.month t.day +
    3600 * t.hour + 60 * t.minute + t.second - 60 * t.offset

inductive Step : Valkey → Int → Valkey → Int → Prop where
  | create (v : Valkey) (i : Int) (r : Ruleset) (now : DateTime) :
      now.Valid → i ≤ now.instant → Step v i (CreateOp v r now).2 now.instant
  | update (v : Valkey) (i : Int) (name : String) (upd : RulesetUpdate) (now : DateTime) :
      now.Valid → i ≤ now.instant → Step v i (UpdateOp v name upd now).2 now.instant
  | delete (v : Valkey) (i : Int) (name : String) :
      Step v i (DeleteOp v name).2 i

inductive Reachable : Valkey → Int → Prop where
  | init (fail : Bool) (i : Int) : Reachable ⟨[], fail⟩ i
  | step {v : Valkey} {i : Int} {v' : Valkey} {i' : Int} :
      Reachable v i → Step v i v' i' → Reachable v' i'

/-- The stored timestamps of one hash: both fields hold formatted valid
instants with created_at ≤ last_modified ≤ the clock. -/
def EntryInv (f : Fields) (i : Int) : Prop :=
  ∃ tc tl : DateTime, tc.Valid ∧ tl.Valid ∧
    lookupA f "created_at" = some (FormatTimestamp tc) ∧
    lookupA f "last_modified" = some (FormatTimestamp tl) ∧
    tc.instant ≤ tl.instant ∧ tl.instant ≤ i

def StoreInv (v : Valkey) (i : Int) : Prop := ∀ p ∈ v.data, EntryInv p.2 i

theorem entryInv_mono {f : Fields} {i i' : Int} (h : EntryInv f i) (hle : i ≤ i') :
    EntryInv f i' := by
  obtain ⟨tc, tl, h1, h2, h3, h4, h5, h6⟩ := h
  exact ⟨tc, tl, h1, h2, h3, h4, h5, le_trans h6 hle⟩

theorem mem_upsertA {α : Type} (l : List (String × α)) (k : String) (x : α)
    (p : String × α) (h : p ∈ upsertA l k x) : p = (k, x) ∨ p ∈ l := by
  induction l with
  | nil =>
    unfold upsertA at h
    rcases List.mem_singleton.mp h with rfl
    exact Or.inl rfl
  | cons q rest ih =>
    obtain ⟨k', y⟩ := q
    unfold upsertA at h
    by_cases hk : k' = k
    · rw [if_pos hk] at h
      rcases List.mem_cons.mp h with rfl | hmem
      · exact Or.inl rfl
      · exact Or.inr (List.mem_cons.mpr (Or.inr hmem))
    · rw [if_neg hk] at h
      rcases List.mem_cons.mp h with rfl | hmem
      · exact Or.inr (List.mem_cons.mpr (Or.inl rfl))
      · rcases ih hmem with h' | h'
        · exact Or.inl h'
        · exact Or.inr (List.mem_cons.mpr (Or.inr h'))

theorem lookupA_mem {α : Type} (l : List (String × α)) (k : String) (x : α)
    (h : lookupA l k = some x) : (k, x) ∈ l := by
  induction l with
  | nil => cases h
  | cons q rest ih =>
    obtain ⟨k', y⟩ := q
    rw [lookupA_cons] at h
    by_cases hk : k' = k
    · rw [if_pos hk] at h
      cases h
      subst hk
      exact List.mem_cons.mpr (Or.inl rfl)
    · rw [if_neg hk] at h
      exact List.mem_cons.mpr (Or.inr (ih h))

theorem lookupA_filter_ne {α : Type} (l : List (String × α)) (key k : String) :
    lookupA (l.filter (fun e => e.1 ≠ key)) k =
      if k = key then none else lookupA l k := by
  induction l with
  | nil => simp
  | cons q rest ih =>
    obtain ⟨k', y⟩ := q
    by_cases hk : k' = key
    · have hfil : List.filter (fun e => decide (e.1 ≠ key)) ((k', y) :: rest) =
          List.filter (fun e => decide (e.1 ≠ key)) rest := by
        simp [hk]
      rw [hfil, ih, lookupA_cons]
      by_cases hkk : k = key
      · rw [if_pos hkk, if_pos hkk]
      · have hk2 : ¬ k' = k := fun h => hkk (hk ▸ h.symm ▸ rfl)
        rw [if_neg hkk, if_neg hkk, if_neg hk2]
    · have hfil : List.filter (fun e => decide (e.1 ≠ key)) ((k', y) :: rest) =
          (k', y) :: List.filter (fun e => decide (e.1 ≠ key)) rest := by
        simp [hk]
      rw [hfil, lookupA_cons, ih]
      by_cases hkk : k = key
      · have hk2 : ¬ k' = k := fun h => hk (h.trans hkk)
        rw [if_neg hk2, if_pos hkk, if_pos hkk]
      · rw [if_neg hkk, if_neg hkk, lookupA_cons]

/-- The five fields Create persists. -/
theorem create_fields_created_lookup (r : Ruleset) (now : DateTime) :
    lookupA [("description", r.description), ("tags", tagsToJSON r.tags),
      ("markdown", r.markdown), ("created_at", FormatTimestamp now),
      ("last_modified", FormatTimestamp now)] "created_at" =
      some (FormatTimestamp now) := by
  simp

theorem create_fields_lm_lookup (r : Ruleset) (now : DateTime) :
    lookupA [("description", r.description), ("tags", tagsToJSON r.tags),
      ("markdown", r.markdown), ("created_at", FormatTimestamp now),
      ("last_modified", FormatTimestamp now)] "last_modified" =
      some (FormatTimestamp now) := by
  simp

theorem existsKey_false_lookup (v : Valkey) (key : String)
    (h : ¬ existsKey v key = true) : lookupA v.data key = none := by
  unfold existsKey at h
  cases hl : lookupA v.data key with
  | none => rfl
  | some x => rw [hl] at h; simp at h

theorem create_fields_keys_nodup (r : Ruleset) (now : DateTime) :
    (List.map Prod.fst [("description", r.description), ("tags", tagsToJSON r.tags),
      ("markdown", r.markdown), ("created_at", FormatTimestamp now),
      ("last_modified", FormatTimestamp now)]).Nodup := by
  simp

theorem stagedFields_lookup_lm (upd : RulesetUpdate) (now : DateTime) :
    lookupA (stagedFields upd now) "last_modified" = some (FormatTimestamp now) := by
  obtain ⟨od, ot, om⟩ := upd
  rcases od with _ | d <;> rcases ot with _ | ts <;> rcases om with _ | m <;>
    simp [stagedFields]

theorem step_clock_mono {v : Valkey} {i : Int} {v' : Valkey} {i' : Int}
    (h : Step v i v' i') : i ≤ i' := by
  cases h with
  | create _ _ _ hle => exact hle
  | update _ _ _ _ hle => exact hle
  | delete => exact le_refl i

theorem step_preserves_storeInv {v : Valkey} {i : Int} {v' : Valkey} {i' : Int}
    (hinv : StoreInv v i) (hs : Step v i v' i') : StoreInv v' i' := by
  cases hs with
  | create r now hvld hle =>
    intro p hp
    unfold CreateOp at hp
    cases hval : ValidateRulesetName r.name with
    | error e =>
      rw [hval] at hp
      exact entryInv_mono (hinv p hp) hle
    | ok u =>
      cases u
      rw [hval] at hp
      by_cases hex : existsKey v (mkKey r.name) = true
      · simp only [hex, if_true] at hp
        by_cases hsf : v.scanFails <;> simp only [hsf, if_true, if_false] at hp <;>
          exact entryInv_mono (hinv p hp) hle
      · simp only [hex, Bool.false_eq_true, if_false] at hp
        unfold hsetStore at hp
        simp only at hp
        rw [existsKey_false_lookup v _ hex] at hp
        simp only [Option.getD_none] at hp
        rcases mem_upsertA _ _ _ _ hp with rfl | hmem
        · refine ⟨now, now, hvld, hvld, ?_, ?_, le_refl _, le_refl _⟩
          · rw [lookupA_hsetFields _ _ (create_fields_keys_nodup r now),
              create_fields_created_lookup]
          · rw [lookupA_hsetFields _ _ (create_fields_keys_nodup r now),
              create_fields_lm_lookup]
        · exact entryInv_mono (hinv p hmem) hle
  | update name upd now hvld hle =>
    intro p hp
    unfold UpdateOp at hp
    cases hval : ValidateRulesetName name with
    | error e =>
      rw [hval] at hp
      exact entryInv_mono (hinv p hp) hle
    | ok u =>
      cases u
      rw [hval] at hp
      by_cases hex : existsKey v (mkKey name) = true
      · simp only [hex, if_true] at hp
        by_cases hlen : (stagedFields upd now).length = 1
        · rw [if_pos hlen] at hp
          exact entryInv_mono (hinv p hp) hle
        · rw [if_neg hlen] at hp
          unfold hsetStore at hp
          simp only at hp
          cases hlk : lookupA v.data (mkKey name) with
          | none =>
            unfold existsKey at hex
            rw [hlk] at hex
            simp at hex
          | some f0 =>
            rw [hlk] at hp
            simp only [Option.getD_some] at hp
            rcases mem_upsertA _ _ _ _ hp with rfl | hmem
            · obtain ⟨tc, tl, h1, h2, h3, h4, h5, h6⟩ :=
                hinv (mkKey name, f0) (lookupA_mem _ _ _ hlk)
              refine ⟨tc, now, h1, hvld, ?_, ?_, le_trans h5 (le_trans h6 hle), le_refl _⟩
              · rw [lookupA_hsetFields _ _ (stagedFields_nodup upd now),
                  stagedFields_lookup_other upd now _ (by decide) (by decide) (by decide)
                    (by decide)]
                exact h3
              · rw [lookupA_hsetFields _ _ (stagedFields_nodup upd now),
                  stagedFields_lookup_lm upd now]
            · exact entryInv_mono (hinv p hmem) hle
      · simp only [hex, Bool.false_eq_true, if_false] at hp
        exact entryInv_mono (hinv p hp) hle
  | delete name =>
    intro p hp
    unfold DeleteOp at hp
    cases hval : ValidateRulesetName name with
    | error e =>
      rw [hval] at hp
      exact hinv p hp
    | ok u =>
      cases u
      rw [hval] at hp
      by_cases hex : existsKey v (mkKey name) = true
      · simp only [hex, if_true] at hp
        unfold delStore at hp
        simp only at hp
        exact hinv p (List.mem_of_mem_filter hp)
      · by_cases hsf : v.scanFails <;>
          simp only [hex, hsf, Bool.false_eq_true, if_true, if_false] at hp <;>
          exact hinv p hp

theorem reachable_storeInv {v : Valkey} {i : Int} (hr : Reachable v i) : StoreInv v i := by
  induction hr with
  | init fail i => intro p hp; cases hp
  | step hprev hstep ih => exact step_preserves_storeInv ih hstep

theorem step_preserves_created {v : Valkey} {i : Int} {v' : Valkey} {i' : Int}
    (hs : Step v i v' i') (k : String) (f f' : Fields)
    (hf : lookupA v.data k = some f) (hf' : lookupA v'.data k = some f') :
    lookupA f' "created_at" = lookupA f "created_at" := by
  cases hs with
  | create r now hvld hle =>
    unfold CreateOp at hf'
    cases hval : ValidateRulesetName r.name with
    | error e =>
      rw [hval] at hf'
      rw [hf] at hf'
      cases hf'
      rfl
    | ok u =>
      cases u
      rw [hval] at hf'
      by_cases hex : existsKey v (mkKey r.name) = true
      · rw [if_pos hex] at hf'
        have hv2 : lookupA v.data k = some f' := by
          by_cases hsf : v.scanFails = true
          · rw [if_pos hsf] at hf'
            exact hf'
          · rw [if_neg hsf] at hf'
            exact hf'
        rw [hf] at hv2
        cases hv2
        rfl
      · simp only [hex, Bool.false_eq_true, if_false] at hf'
        unfold hsetStore at hf'
        simp only at hf'
        rw [lookupA_upsertA] at hf'
        have hkne : ¬ mkKey r.name = k := by
          intro he
          rw [he] at hex
          unfold existsKey at hex
          rw [hf] at hex
          simp at hex
        rw [if_neg hkne, hf] at hf'
        cases hf'
        rfl
  | update name upd now hvld hle =>
    unfold UpdateOp at hf'
    cases hval : ValidateRulesetName name with
    | error e =>
      rw [hval] at hf'
      rw [hf] at hf'
      cases hf'
      rfl
    | ok u =>
      cases u
      rw [hval] at hf'
      by_cases hex : existsKey v (mkKey name) = true
      · simp only [hex, if_true] at hf'
        by_cases hlen : (stagedFields upd now).length = 1
        · rw [if_pos hlen, hf] at hf'
          cases hf'
          rfl
        · rw [if_neg hlen] at hf'
          unfold hsetStore at hf'
          simp only at hf'
          rw [lookupA_upsertA] at hf'
          by_cases hk : mkKey name = k
          · subst hk
            rw [if_pos rfl] at hf'
            rw [hf] at hf'
            simp only [Option.getD_some] at hf'
            cases hf'
            rw [lookupA_hsetFields _ _ (stagedFields_nodup upd now),
              stagedFields_lookup_other upd now _ (by decide) (by decide) (by decide)
                (by decide)]
          · rw [if_neg hk, hf] at hf'
            cases hf'
            rfl
      · simp only [hex, Bool.false_eq_true, if_false] at hf'
        rw [hf] at hf'
        cases hf'
        rfl
  | delete name =>
    unfold DeleteOp at hf'
    cases hval : ValidateRulesetName name with
    | error e =>
      rw [hval] at hf'
      rw [hf] at hf'
      cases hf'
      rfl
    | ok u =>
      cases u
      rw [hval] at hf'
      by_cases hex : existsKey v (mkKey name) = true
      · simp only [hex, if_true] at hf'
        unfold delStore at hf'
        simp only at hf'
        rw [lookupA_filter_ne] at hf'
        by_cases hk : k = mkKey name
        · rw [if_pos hk] at hf'
          cases hf'
        · rw [if_neg hk, hf] at hf'
          cases hf'
          rfl
      · by_cases hsf : v.scanFails <;>
          simp only [hex, hsf, Bool.false_eq_true, if_true, if_false] at hf' <;>
          · rw [hf] at hf'
            cases hf'
            rfl

/-- C8: in every state reachable by Create/Update/Delete under a
never-decreasing clock, every stored ruleset's created_at and
last_modified decode to instants with created_at ≤ last_modified, and one
further step never changes the stored created_at of a name present before
and after it. -/
theorem createdAt_le_lastModified_invariant (v : Valkey) (i : Int)
    (hr : Reachable v i) :
    (∀ p ∈ v.data, ∃ c l : DateTime,
      (lookupA p.2 "created_at").bind ParseTimestamp = some c ∧
      (lookupA p.2 "last_modified").bind ParseTimestamp = some l ∧
      c.instant ≤ l.instant) ∧
    (∀ v' i', Step v i v' i' → ∀ k f f',
      lookupA v.data k = some f → lookupA v'.data k = some f' →
      lookupA f' "created_at" = lookupA f "created_at") := by
  constructor
  · intro p hp
    obtain ⟨tc, tl, h1, h2, h3, h4, h5, _⟩ := reachable_storeInv hr p hp
    refine ⟨tc, tl, ?_, ?_, h5⟩
    · rw [h3]
      exact parseTimestamp_formatTimestamp_roundtrip tc h1
    · rw [h4]
      exact parseTimestamp_formatTimestamp_roundtrip tl h2
  · intro v' i' hs k f f' hf hf'
    exact step_preserves_created hs k f f' hf hf'

/-- Concrete instance of C8 at the store reached by one Create. -/
theorem createdAt_le_lastModified_invariant_witness :
    ∃ p ∈ ((CreateOp ⟨[], false⟩
        ⟨"demo", "d", [], "m", DateTime.zero, DateTime.zero⟩
        ⟨2024, 1, 1, 0, 0, 0, 0⟩).2).data,
      ∃ c l : DateTime,
        (lookupA p.2 "created_at").bind ParseTimestamp = some c ∧
        (lookupA p.2 "last_modified").bind ParseTimestamp = some l ∧
        c.instant ≤ l.instant := by
  have hr : Reachable ((CreateOp ⟨[], false⟩
      ⟨"demo", "d", [], "m", DateTime.zero, DateTime.zero⟩
      ⟨2024, 1, 1, 0, 0, 0, 0⟩).2) (DateTime.instant ⟨2024, 1, 1, 0, 0, 0, 0⟩) :=
    Reachable.step (Reachable.init false (DateTime.instant ⟨2024, 1, 1, 0, 0, 0, 0⟩))
      (Step.create ⟨[], false⟩ _ _ _ (by decide) (le_refl _))
  refine ⟨(mkKey "demo",
    [("description", "d"), ("tags", "[]"), ("markdown", "m"),
     ("created_at", "2024-01-01T00:00:00Z"), ("last_modified", "2024-01-01T00:00:00Z")]),
    by decide, ?_⟩
  exact (createdAt_le_lastModified_invariant _ _ hr).1 _ (by decide)

/-! ### Correctness of the glob matcher (C2) -/

theorem globMatch_nil_nil : globMatch [] [] = true := by
  rw [globMatch]

theorem globMatch_nil_cons (q : Char) (p : List Char) :
    globMatch [] (q :: p) = (q == '*' && globMatch [] p) := by
  rw [globMatch]

theorem globMatch_cons_nil (c : Char) (t : List Char) :
    globMatch (c :: t) [] = false := by
  rw [globMatch]

theorem globMatch_cons_cons (c : Char) (t : List Char) (q : Char) (p : List Char) :
    globMatch (c :: t) (q :: p) =
      if q = '*' then globMatch (c :: t) p || globMatch t (q :: p)
      else (q == '?' || q == c) && globMatch t p := by
  rw [globMatch]

theorem globMatch_star (c : Char) (t p : List Char) :
    globMatch (c :: t) ('*' :: p) = (globMatch (c :: t) p || globMatch t ('*' :: p)) := by
  rw [globMatch_cons_cons, if_pos rfl]

theorem globMatch_lit (c : Char) (t : List Char) (q : Char) (p : List Char) (h : q ≠ '*') :
    globMatch (c :: t) (q :: p) = ((q == '?' || q == c) && globMatch t p) := by
  rw [globMatch_cons_cons, if_neg h]

/-- The empty text matches exactly the all-star patterns. -/
theorem globMatch_nil_left (p : List Char) :
    globMatch [] p = (p.dropWhile (fun q => q == '*')).isEmpty := by
  induction p with
  | nil => rw [globMatch_nil_nil]; rfl
  | cons q p ih =>
    rw [globMatch_nil_cons, List.dropWhile_cons]
    by_cases hq : q = '*'
    · simp [hq, ih]
    · simp [hq]

/-- Soundness of the reference matcher against the spec semantics. -/
theorem glob_of_globMatch (t p : List Char) (h : globMatch t p = true) : Glob t p := by
  induction t, p using globMatch.induct with
  | case1 => exact Glob.nil
  | case2 q p ih =>
    rw [globMatch_nil_cons] at h
    simp at h
    obtain ⟨hq, hrest⟩ := h
    subst hq
    exact Glob.starSkip _ _ (ih hrest)
  | case3 c t => rw [globMatch_cons_nil] at h; cases h
  | case4 c t p ih1 ih2 =>
    rw [globMatch_cons_cons, if_pos rfl] at h
    rcases Bool.or_eq_true_iff.mp h with h' | h'
    · exact Glob.starSkip _ _ (ih1 h')
    · exact Glob.starTake _ _ _ (ih2 h')
  | case5 c t q p hq ih =>
    rw [globMatch_lit _ _ _ _ hq] at h
    simp at h
    obtain ⟨hcq, hrest⟩ := h
    by_cases hqm : q = '?'
    · subst hqm
      exact Glob.qmark _ _ _ (ih hrest)
    · have hqc : q = c := by
        rcases hcq with h' | h'
        · exact absurd h' hqm
        · exact h'
      subst hqc
      exact Glob.lit _ _ _ hq hqm (ih hrest)

/-- Completeness of the reference matcher against the spec semantics. -/
theorem globMatch_of_glob (t p : List Char) (h : Glob t p) : globMatch t p = true := by
  induction h with
  | nil => exact globMatch_nil_nil
  | qmark c t p hg ih =>
    rw [globMatch_lit _ _ _ _ (by decide)]
    simp [ih]
  | lit q t p hstar hqm hg ih =>
    rw [globMatch_lit _ _ _ _ hstar]
    simp [ih]
  | starSkip t p hg ih =>
    cases t with
    | nil =>
      rw [globMatch_nil_cons]
      simp [ih]
    | cons c t' =>
      rw [globMatch_star]
      simp [ih]
  | starTake c t p hg ih =>
    rw [globMatch_star]
    simp [ih]

/-- A star-headed pattern matches exactly when some suffix of the text
matches the rest. -/
theorem globMatch_star_iff (u v : List Char) :
    globMatch u ('*' :: v) = true ↔ ∃ k, globMatch (u.drop k) v = true := by
  induction u with
  | nil =>
    rw [globMatch_nil_cons]
    constructor
    · intro h
      simp at h
      exact ⟨0, h⟩
    · rintro ⟨k, hk⟩
      simp at hk
      simp [hk]
  | cons c u ih =>
    rw [globMatch_star]
    constructor
    · intro h
      rcases Bool.or_eq_true_iff.mp h with h' | h'
      · exact ⟨0, h'⟩
      · obtain ⟨k, hk⟩ := ih.mp h'
        exact ⟨k + 1, hk⟩
    · rintro ⟨k, hk⟩
      cases k with
      | zero => exact Bool.or_eq_true_iff.mpr (Or.inl hk)
      | succ k => exact Bool.or_eq_true_iff.mpr (Or.inr (ih.mpr ⟨k, hk⟩))

theorem globMatch_star_of_match (u v : List Char) (h : globMatch u v = true) :
    globMatch u ('*' :: v) = true :=
  (globMatch_star_iff u v).mpr ⟨0, h⟩

theorem globMatch_star_of_drop (u v : List Char) (k : Nat)
    (h : globMatch (u.drop k) ('*' :: v) = true) : globMatch u ('*' :: v) = true := by
  obtain ⟨k', hk⟩ := (globMatch_star_iff _ v).mp h
  rw [List.drop_drop] at hk
  exact (globMatch_star_iff u v).mpr ⟨_, hk⟩

/-- The single-character relation the two-pointer loop uses: pattern char q
accepts text char c. -/
def litR (c q : Char) : Prop := q = '?' ∨ q = c

theorem litR_ne_star {c q : Char} (h : litR c q) (hc : c ≠ '*') : q ≠ '*' := by
  rcases h with h | h
  · subst h; decide
  · subst h; exact hc

/-- A star-free pointwise-matched prefix is consumed transparently. -/
theorem seg_reduce (pre_t pre_p : List Char) (hf : List.Forall₂ litR pre_t pre_p)
    (hnt : '*' ∉ pre_t) (u v : List Char) :
    globMatch (pre_t ++ u) (pre_p ++ v) = globMatch u v := by
  induction hf with
  | nil => rfl
  | @cons c q pt pp hcq hrest ih =>
    have hc : c ≠ '*' := fun hc => hnt (by simp [hc])
    have hq : q ≠ '*' := litR_ne_star hcq hc
    rw [List.cons_append, List.cons_append, globMatch_lit _ _ _ _ hq]
    have hcond : (q == '?' || q == c) = true := by
      rcases hcq with h | h <;> simp [h]
    rw [hcond]
    rw [ih (fun hm => hnt (by simp [hm]))]
    simp

/-- Matching a star-free pattern segment consumes exactly its length. -/
theorem seg_invert (pre_p : List Char) (hns : '*' ∉ pre_p) (x v : List Char)
    (h : globMatch x (pre_p ++ v) = true) :
    ∃ x1 x2, x = x1 ++ x2 ∧ x1.length = pre_p.length ∧ globMatch x2 v = true := by
  induction pre_p generalizing x with
  | nil => exact ⟨[], x, rfl, rfl, h⟩
  | cons q pre_p ih =>
    have hq : q ≠ '*' := fun hh => hns (by simp [hh])
    cases x with
    | nil =>
      rw [List.cons_append, globMatch_nil_cons] at h
      simp [hq] at h
    | cons c x' =>
      rw [List.cons_append, globMatch_lit _ _ _ _ hq] at h
      simp at h
      obtain ⟨x1, x2, rfl, hlen, hm⟩ := ih (fun hm => hns (by simp [hm])) x' h.2
      exact ⟨c :: x1, x2, rfl, by simp [hlen], hm⟩

theorem forall2_no_star {pre_t pre_p : List Char} (hf : List.Forall₂ litR pre_t pre_p)
    (hnt : '*' ∉ pre_t) : '*' ∉ pre_p := by
  induction hf with
  | nil => simp
  | @cons c q pt pp hcq hrest ih =>
    have hc : c ≠ '*' := fun hc => hnt (by simp [hc])
    have hq : q ≠ '*' := litR_ne_star hcq hc
    intro hm
    rcases List.mem_cons.mp hm with hm | hm
    · exact hq hm.symm
    · exact ih (fun hm2 => hnt (by simp [hm2])) hm

/-- The greedy shift at a new star: if a star-free matched segment stands
between the previous star and a new star, restarting at the new star is
equivalent. -/
theorem star_shift (pre_t pre_p rt rp' : List Char) (hf : List.Forall₂ litR pre_t pre_p)
    (hnt : '*' ∉ pre_t ++ rt) :
    globMatch (pre_t ++ rt) ('*' :: (pre_p ++ '*' :: rp')) =
      globMatch rt ('*' :: rp') := by
  have hlen : pre_t.length = pre_p.length := List.Forall₂.length_eq hf
  have hntp : '*' ∉ pre_t := fun hm => hnt (List.mem_append.mpr (Or.inl hm))
  have hnsp : '*' ∉ pre_p := forall2_no_star hf hntp
  apply Bool.coe_iff_coe.mp
  constructor
  · intro h
    obtain ⟨k, hk⟩ := (globMatch_star_iff _ _).mp h
    obtain ⟨x1, x2, hx, hxlen, hm⟩ := seg_invert pre_p hnsp _ _ hk
    have h1 : x2 = ((pre_t ++ rt).drop k).drop x1.length := by
      rw [hx, List.drop_left]
    have h2 : x2 = (pre_t ++ rt).drop (pre_t.length + k) := by
      rw [h1, List.drop_drop]
      congr 1
      omega
    rw [List.drop_append] at h2
    rw [h2] at hm
    exact globMatch_star_of_drop rt rp' k hm
  · intro h
    apply globMatch_star_of_match
    rw [seg_reduce pre_t pre_p hf hntp]
    exact h

/-- What the loop is computing in each state: with no star seen, a match of
the remaining text against the remaining pattern; after a star, a match of
the text from the last backtrack point against the star and the pattern
after it. -/
def mpAnswer : List Char → List Char → Option (List Char × List Char) → Bool
  | rt, rp, none => globMatch rt rp
  | _, _, some (st, sp) => globMatch st ('*' :: sp)

/-- Loop invariant tying the current position to the saved backtrack
state: the saved text extends the remaining text by a star-free segment
that matched the pattern between the star and the current position. -/
def SavedInv : List Char → List Char → Option (List Char × List Char) → Prop
  | _, _, none => True
  | rt, rp, some (st, sp) =>
    '*' ∉ st ∧ ∃ pre_t pre_p, st = pre_t ++ rt ∧ sp = pre_p ++ rp ∧
      List.Forall₂ litR pre_t pre_p

def SavedBounds (T P : Nat) : Option (List Char × List Char) → Prop
  | none => True
  | some (st, sp) => st.length ≤ T ∧ sp.length ≤ P

/-- Termination measure of the loop: the backtrack point dominates. -/
def mpMeasure (B : Nat) (rt rp : List Char)
    (saved : Option (List Char × List Char)) : Nat :=
  (match saved with
   | none => rt.length
   | some (st, _) => st.length) * B + rt.length + rp.length

theorem mpLoop_succ_nil (fuel : Nat) (rp : List Char)
    (saved : Option (List Char × List Char)) :
    mpLoop (fuel + 1) [] rp saved = (rp.dropWhile (fun q => q == '*')).isEmpty := rfl

theorem mpLoop_succ_cons_cons (fuel : Nat) (c : Char) (rt' : List Char) (q : Char)
    (rp' : List Char) (saved : Option (List Char × List Char)) :
    mpLoop (fuel + 1) (c :: rt') (q :: rp') saved =
      (if q == '?' || q == c then mpLoop fuel rt' rp' saved
       else if q == '*' then mpLoop fuel (c :: rt') rp' (some (c :: rt', rp'))
       else
         match saved with
         | some (st, sp) =>
           match st with
           | _ :: st' => mpLoop fuel st' sp (some (st', sp))
           | [] => false
         | none => false) := rfl

theorem mpLoop_succ_cons_nil (fuel : Nat) (c : Char) (rt' : List Char)
    (saved : Option (List Char × List Char)) :
    mpLoop (fuel + 1) (c :: rt') [] saved =
      (match saved with
       | some (st, sp) =>
         match st with
         | _ :: st' => mpLoop fuel st' sp (some (st', sp))
         | [] => false
       | none => false) := rfl

/-- Exit with a saved star: the remaining pattern is all stars exactly when
the saved state matches. -/
theorem mpExit_saved (rp st sp pre_t pre_p : List Char) (hnst : '*' ∉ st)
    (hst : st = pre_t ++ []) (hsp : sp = pre_p ++ rp)
    (hf : List.Forall₂ litR pre_t pre_p) :
    (rp.dropWhile (fun q => q == '*')).isEmpty = globMatch st ('*' :: sp) := by
  apply Bool.coe_iff_coe.mp
  rw [← globMatch_nil_left]
  constructor
  · intro hemp
    apply globMatch_star_of_match
    rw [hst, hsp, seg_reduce pre_t pre_p hf (by rw [hst] at hnst; simpa using hnst)]
    exact hemp
  · intro hmat
    rw [hst, hsp] at hmat
    have hntp : '*' ∉ pre_t := by rw [hst] at hnst; simpa using hnst
    have hnsp : '*' ∉ pre_p := forall2_no_star hf hntp
    obtain ⟨k, hk⟩ := (globMatch_star_iff _ _).mp hmat
    obtain ⟨x1, x2, hx, hxlen, hm2⟩ := seg_invert pre_p hnsp _ _ hk
    have hlen2 : pre_t.length = pre_p.length := hf.length_eq
    have hx2nil : x2 = [] := by
      have e1 : ((pre_t ++ ([] : List Char)).drop k).length = x1.length + x2.length := by
        rw [hx]
        simp
      simp only [List.append_nil, List.length_drop] at e1
      have hx2 : x2.length = 0 := by omega
      exact List.length_eq_zero.mp hx2
    rw [hx2nil] at hm2
    exact hm2

theorem mpLoop_correct (fuel : Nat) :
    ∀ (T P : Nat) (rt rp : List Char) (saved : Option (List Char × List Char)),
    '*' ∉ rt → rt.length ≤ T → rp.length ≤ P →
    SavedInv rt rp saved → SavedBounds T P saved →
    mpMeasure (T + P + 2) rt rp saved < fuel →
    mpLoop fuel rt rp saved = mpAnswer rt rp saved := by
  induction fuel with
  | zero =>
    intro T P rt rp saved _ _ _ _ _ hm
    exact absurd hm (Nat.not_lt_zero _)
  | succ fuel ih =>
    intro T P rt rp saved hnt hrtT hrpP hsv hbd hm
    cases rt with
    | nil =>
      rw [mpLoop_succ_nil]
      cases saved with
      | none => exact (globMatch_nil_left rp).symm
      | some pair =>
        obtain ⟨st, sp⟩ := pair
        obtain ⟨hnst, pre_t, pre_p, hst, hsp, hf⟩ := hsv
        exact mpExit_saved rp st sp pre_t pre_p hnst hst hsp hf
    | cons c rt' =>
      have hc : c ≠ '*' := fun h => hnt (by simp [h])
      have hnt' : '*' ∉ rt' := fun h => hnt (by simp [h])
      have hrt'T : rt'.length ≤ T := by
        simp at hrtT
        omega
      cases rp with
      | nil =>
        rw [mpLoop_succ_cons_nil]
        cases saved with
        | none => exact (globMatch_cons_nil c rt').symm
        | some pair =>
          obtain ⟨st, sp⟩ := pair
          obtain ⟨hnst, pre_t, pre_p, hst, hsp, hf⟩ := hsv
          obtain ⟨hstT, hspP⟩ := hbd
          cases st with
          | nil => simp at hst
          | cons s0 st'' =>
            have hnst'' : '*' ∉ st'' := fun h => hnst (by simp [h])
            have hst''T : st''.length ≤ T := by
              simp at hstT
              omega
            have hmeas : mpMeasure (T + P + 2) st'' sp (some (st'', sp)) < fuel := by
              simp only [mpMeasure] at hm ⊢
              rw [show (s0 :: st'').length = st''.length + 1 from by simp,
                Nat.succ_mul] at hm
              set X := st''.length * (T + P + 2) with hX
              omega
            show mpLoop fuel st'' sp (some (st'', sp)) =
              mpAnswer (c :: rt') [] (some (s0 :: st'', sp))
            rw [ih T P st'' sp (some (st'', sp)) hnst'' hst''T hspP
              ⟨hnst'', [], [], rfl, rfl, List.Forall₂.nil⟩ ⟨hst''T, hspP⟩ hmeas]
            show globMatch st'' ('*' :: sp) = globMatch (s0 :: st'') ('*' :: sp)
            rw [globMatch_star]
            have hfalse : globMatch (s0 :: st'') sp = false := by
              rw [hsp, hst, seg_reduce pre_t pre_p hf
                (fun h => hnst (by rw [hst]; exact List.mem_append.mpr (Or.inl h)))]
              exact globMatch_cons_nil c rt'
            rw [hfalse]
            simp
      | cons q rp' =>
        have hrp'P : rp'.length ≤ P := by
          simp at hrpP
          omega
        rw [mpLoop_succ_cons_cons]
        by_cases hcond : (q == '?' || q == c) = true
        · rw [if_pos hcond]
          have hlit : litR c q := by
            rcases Bool.or_eq_true_iff.mp hcond with h | h
            · exact Or.inl (by simpa using h)
            · exact Or.inr (by simpa using h)
          have hqne : q ≠ '*' := litR_ne_star hlit hc
          cases saved with
          | none =>
            have hmeas : mpMeasure (T + P + 2) rt' rp' none < fuel := by
              simp only [mpMeasure] at hm ⊢
              have hmul : rt'.length * (T + P + 2) ≤ (c :: rt').length * (T + P + 2) :=
                Nat.mul_le_mul_right _ (by simp)
              rw [show (c :: rt').length = rt'.length + 1 from by simp,
                Nat.succ_mul] at hm
              set X := rt'.length * (T + P + 2) with hX
              simp only [List.length_cons] at hm ⊢
              omega
            rw [ih T P rt' rp' none hnt' hrt'T hrp'P trivial trivial hmeas]
            show globMatch rt' rp' = globMatch (c :: rt') (q :: rp')
            rw [globMatch_lit _ _ _ _ hqne, hcond]
            simp
          | some pair =>
            obtain ⟨st, sp⟩ := pair
            obtain ⟨hnst, pre_t, pre_p, hst, hsp, hf⟩ := hsv
            obtain ⟨hstT, hspP⟩ := hbd
            have hinv' : SavedInv rt' rp' (some (st, sp)) := by
              refine ⟨hnst, pre_t ++ [c], pre_p ++ [q], ?_, ?_, ?_⟩
              · rw [hst]
                simp
              · rw [hsp]
                simp
              · exact List.rel_append hf (List.Forall₂.cons hlit List.Forall₂.nil)
            have hmeas : mpMeasure (T + P + 2) rt' rp' (some (st, sp)) < fuel := by
              simp only [mpMeasure] at hm ⊢
              set X := st.length * (T + P + 2) with hX
              simp only [List.length_cons] at hm ⊢
              omega
            rw [ih T P rt' rp' (some (st, sp)) hnt' hrt'T hrp'P hinv' ⟨hstT, hspP⟩ hmeas]
            rfl
        · rw [if_neg hcond]
          by_cases hstar : (q == '*') = true
          · rw [if_pos hstar]
            have hq : q = '*' := by simpa using hstar
            subst hq
            have hinv' : SavedInv (c :: rt') rp' (some (c :: rt', rp')) :=
              ⟨hnt, [], [], rfl, rfl, List.Forall₂.nil⟩
            have hbd' : SavedBounds T P (some (c :: rt', rp')) := ⟨hrtT, hrp'P⟩
            cases saved with
            | none =>
              have hmeas : mpMeasure (T + P + 2) (c :: rt') rp'
                  (some (c :: rt', rp')) < fuel := by
                simp only [mpMeasure] at hm ⊢
                set X := (c :: rt').length * (T + P + 2) with hX
                simp only [List.length_cons] at hm ⊢
                omega
              rw [ih T P (c :: rt') rp' (some (c :: rt', rp')) hnt hrtT hrp'P
                hinv' hbd' hmeas]
              rfl
            | some pair =>
              obtain ⟨st, sp⟩ := pair
              obtain ⟨hnst, pre_t, pre_p, hst, hsp, hf⟩ := hsv
              obtain ⟨hstT, hspP⟩ := hbd
              have hmeas : mpMeasure (T + P + 2) (c :: rt') rp'
                  (some (c :: rt', rp')) < fuel := by
                simp only [mpMeasure] at hm ⊢
                have hle : (c :: rt').length ≤ st.length := by
                  rw [hst]
                  simp
                have hmul : (c :: rt').length * (T + P + 2) ≤ st.length * (T + P + 2) :=
                  Nat.mul_le_mul_right _ hle
                set X := (c :: rt').length * (T + P + 2) with hX
                set Y := st.length * (T + P + 2) with hY
                simp only [List.length_cons] at hm ⊢
                omega
              rw [ih T P (c :: rt') rp' (some (c :: rt', rp')) hnt hrtT hrp'P
                hinv' hbd' hmeas]
              show globMatch (c :: rt') ('*' :: rp') = globMatch st ('*' :: sp)
              rw [hst, hsp]
              exact (star_shift pre_t pre_p (c :: rt') rp' hf
                (by rw [hst] at hnst; exact hnst)).symm
          · rw [if_neg hstar]
            have hqne : q ≠ '*' := by simpa using hstar
            have hcondf : (q == '?' || q == c) = false := by
              simpa using hcond
            cases saved with
            | none =>
              show false = mpAnswer (c :: rt') (q :: rp') none
              show false = globMatch (c :: rt') (q :: rp')
              rw [globMatch_lit _ _ _ _ hqne, hcondf]
              simp
            | some pair =>
              obtain ⟨st, sp⟩ := pair
              obtain ⟨hnst, pre_t, pre_p, hst, hsp, hf⟩ := hsv
              obtain ⟨hstT, hspP⟩ := hbd
              cases st with
              | nil => simp at hst
              | cons s0 st'' =>
                have hnst'' : '*' ∉ st'' := fun h => hnst (by simp [h])
                have hst''T : st''.length ≤ T := by
                  simp at hstT
                  omega
                have hmeas : mpMeasure (T + P + 2) st'' sp (some (st'', sp)) < fuel := by
                  simp only [mpMeasure] at hm ⊢
                  rw [show (s0 :: st'').length = st''.length + 1 from by simp,
                    Nat.succ_mul] at hm
                  set X := st''.length * (T + P + 2) with hX
                  simp only [List.length_cons] at hm ⊢
                  omega
                show mpLoop fuel st'' sp (some (st'', sp)) =
                  mpAnswer (c :: rt') (q :: rp') (some (s0 :: st'', sp))
                rw [ih T P st'' sp (some (st'', sp)) hnst'' hst''T hspP
                  ⟨hnst'', [], [], rfl, rfl, List.Forall₂.nil⟩ ⟨hst''T, hspP⟩ hmeas]
                show globMatch st'' ('*' :: sp) = globMatch (s0 :: st'') ('*' :: sp)
                rw [globMatch_star]
                have hfalse : globMatch (s0 :: st'') sp = false := by
                  rw [hsp, hst, seg_reduce pre_t pre_p hf
                    (fun h => hnst (by rw [hst]; exact List.mem_append.mpr (Or.inl h)))]
                  rw [globMatch_lit _ _ _ _ hqne, hcondf]
                  simp
                rw [hfalse]
                simp

/-- On star-free texts the two-pointer loop agrees with the reference
matcher. -/
theorem matchesPattern_eq_globMatch (text pat : String) (h : '*' ∉ text.data) :
    matchesPattern text pat = globMatch text.data pat.data := by
  unfold matchesPattern
  apply mpLoop_correct _ text.data.length pat.data.length text.data pat.data none h
    (le_refl _) (le_refl _) trivial trivial
  simp only [mpMeasure]
  set T := text.data.length with hT
  set P := pat.data.length with hP
  have : (T + 1) * (T + P + 2) = T * (T + P + 2) + (T + P + 2) := by
    rw [Nat.succ_mul]
  rw [this]
  set X := T * (T + P + 2) with hX
  omega

theorem Glob.starAll (t : List Char) : Glob t ['*'] := by
  induction t with
  | nil => exact Glob.starSkip [] [] Glob.nil
  | cons c t ih => exact Glob.starTake c t ['*'].tail ih

theorem Glob.starConsume (t u p : List Char) (h : Glob u p) : Glob (t ++ u) ('*' :: p) := by
  induction t with
  | nil => exact Glob.starSkip u p h
  | cons c t ih => exact Glob.starTake c _ _ ih

theorem Glob.litRun (l t p : List Char) (hl : ∀ c ∈ l, c ≠ '*' ∧ c ≠ '?')
    (h : Glob t p) : Glob (l ++ t) (l ++ p) := by
  induction l with
  | nil => exact h
  | cons c l ih =>
    obtain ⟨h1, h2⟩ := hl c (by simp)
    exact Glob.lit c _ _ h1 h2 (ih (fun d hd => hl d (by simp [hd])))

/-- C2 (amended): for every text string containing no star character and
every pattern string, matchesPattern returns true exactly when the whole
text matches the pattern under the spec's anchored glob semantics (star =
any run including the empty run, question mark = exactly one character,
anything else literal), with correct backtracking across multiple stars. -/
theorem matchesPattern_glob_correct (text pat : String) (h : '*' ∉ text.data) :
    matchesPattern text pat = true ↔ Glob text.data pat.data := by
  rw [matchesPattern_eq_globMatch text pat h]
  exact ⟨glob_of_globMatch _ _, globMatch_of_glob _ _⟩

/-- Concrete instance of the amended C2 statement, at the spec's own
example: the multi-star pattern *_style_* matches python_style_guide
through backtracking. -/
theorem matchesPattern_glob_correct_witness :
    matchesPattern "python_style_guide" "*_style_*" = true := by
  apply (matchesPattern_glob_correct "python_style_guide" "*_style_*" (by decide)).mpr
  have hg : Glob ("python".data ++ ("_style_".data ++ "guide".data))
      ('*' :: ("_style_".data ++ ['*'])) :=
    Glob.starConsume _ _ _ (Glob.litRun _ _ _ (by decide) (Glob.starAll _))
  have e1 : "python_style_guide".data =
      "python".data ++ ("_style_".data ++ "guide".data) := by decide
  have e2 : "*_style_*".data = '*' :: ("_style_".data ++ ['*']) := by decide
  rw [e1, e2]
  exact hg

/-- C2 counterexample: the claim as stated, over all texts, is false.  On
the text star-a and the pattern star, the glob semantics match (the star
consumes the whole text), but matchesPattern returns false: the loop's
literal branch fires on the star text character before the star branch, so
the pattern star is consumed as a literal and no backtrack point is
recorded. -/
theorem matchesPattern_star_text_counterexample :
    matchesPattern "*a" "*" = false ∧ Glob "*a".data "*".data := by
  constructor
  · decide
  · have e1 : "*a".data = ['*', 'a'] := by decide
    have e2 : "*".data = ['*'] := by decide
    rw [e1, e2]
    exact Glob.starAll _

end Archivyr
